import Mathlib

/-!
Verification of the Peano completion engine (`learning/completion.py`).

The development shallowly embeds the engine: strings are `List Char`, the
patterns produced by the engine are modelled by the inductive `RE` below
together with the acceptance relation `Accepts` (full-string matching),
Python exceptions are modelled by `Except Err`, and the external symbolic
derivation engine (the `domain` module, which is not part of the sources)
is an opaque structure of operations `DomainModel` that each engine value
carries.
-/

namespace PeanoCompletion

/-- Exceptions thrown by the engine: Python `AssertionError` (from `assert`)
and `ValueError` (from `str.index`, explicit raises, and the spec-modelled
s-expression reader). -/
inductive Err where
  | assertionError : Err
  | valueError : Err
deriving DecidableEq

/-- Syntax of the regular expressions the engine compiles.  `pred p` matches
a single character `c` with `p c = true`; character classes such as `[^x]`
and escaped literal characters are instances of it.  `fail` is the regex
denoting the empty language (the code spells it `$.`). -/
inductive RE where
  | fail : RE
  | eps : RE
  | pred : (Char → Bool) → RE
  | cat : RE → RE → RE
  | alt : RE → RE → RE
  | star : RE → RE

/-- Full-match acceptance for `RE`. -/
inductive Accepts : RE → List Char → Prop where
  | eps : Accepts .eps []
  | pred {p : Char → Bool} {c : Char} : p c = true → Accepts (.pred p) [c]
  | cat {a b : RE} {u v : List Char} :
      Accepts a u → Accepts b v → Accepts (.cat a b) (u ++ v)
  | altL {a b : RE} {s : List Char} : Accepts a s → Accepts (.alt a b) s
  | altR {a b : RE} {s : List Char} : Accepts b s → Accepts (.alt a b) s
  | starNil {a : RE} : Accepts (.star a) []
  | starCat {a : RE} {u v : List Char} :
      Accepts a u → Accepts (.star a) v → Accepts (.star a) (u ++ v)

/-- Does the regex accept the empty string? -/
def nullable : RE → Bool
  | .fail => false
  | .eps => true
  | .pred _ => false
  | .cat a b => nullable a && nullable b
  | .alt a b => nullable a || nullable b
  | .star _ => true

/-- Brzozowski derivative of a regex by one character. -/
def deriv : RE → Char → RE
  | .fail, _ => .fail
  | .eps, _ => .fail
  | .pred p, c => if p c then .eps else .fail
  | .cat a b, c =>
      if nullable a then .alt (.cat (deriv a c) b) (deriv b c)
      else .cat (deriv a c) b
  | .alt a b, c => .alt (deriv a c) (deriv b c)
  | .star a, c => .cat (deriv a c) (.star a)

/-- Executable full matcher: repeated derivatives, then nullability. -/
def accept : RE → List Char → Bool
  | r, [] => nullable r
  | r, c :: s => accept (deriv r c) s

theorem accepts_fail_iff (s : List Char) : Accepts .fail s ↔ False := by
  constructor
  · intro h; cases h
  · intro h; cases h

theorem accepts_eps_iff (s : List Char) : Accepts .eps s ↔ s = [] := by
  constructor
  · intro h; cases h; rfl
  · intro h; subst h; exact .eps

theorem accepts_pred_iff (p : Char → Bool) (s : List Char) :
    Accepts (.pred p) s ↔ ∃ c, s = [c] ∧ p c = true := by
  constructor
  · intro h; cases h with
    | pred hp => exact ⟨_, rfl, hp⟩
  · rintro ⟨c, rfl, hp⟩; exact .pred hp

theorem accepts_cat_iff (a b : RE) (s : List Char) :
    Accepts (.cat a b) s ↔ ∃ u v, s = u ++ v ∧ Accepts a u ∧ Accepts b v := by
  constructor
  · intro h; cases h with
    | cat ha hb => exact ⟨_, _, rfl, ha, hb⟩
  · rintro ⟨u, v, rfl, ha, hb⟩; exact .cat ha hb

theorem accepts_alt_iff (a b : RE) (s : List Char) :
    Accepts (.alt a b) s ↔ Accepts a s ∨ Accepts b s := by
  constructor
  · intro h; cases h with
    | altL h => exact Or.inl h
    | altR h => exact Or.inr h
  · rintro (h | h)
    · exact .altL h
    · exact .altR h

theorem nullable_iff (r : RE) : nullable r = true ↔ Accepts r [] := by
  induction r with
  | fail => simp [nullable, accepts_fail_iff]
  | eps => simp [nullable, accepts_eps_iff]
  | pred p => simp [nullable, accepts_pred_iff]
  | cat a b iha ihb =>
      simp only [nullable, Bool.and_eq_true, iha, ihb, accepts_cat_iff]
      constructor
      · rintro ⟨ha, hb⟩; exact ⟨[], [], rfl, ha, hb⟩
      · rintro ⟨u, v, huv, ha, hb⟩
        rcases List.append_eq_nil.mp huv.symm with ⟨rfl, rfl⟩
        exact ⟨ha, hb⟩
  | alt a b iha ihb =>
      simp [nullable, iha, ihb, accepts_alt_iff]
  | star a ih =>
      simp only [nullable, true_iff]
      exact .starNil

/-- A nonempty string in a star language starts with a nonempty iterate. -/
theorem accepts_star_head :
    ∀ {r : RE} {s : List Char}, Accepts r s → ∀ a, r = .star a →
      s = [] ∨ ∃ u v, s = u ++ v ∧ u ≠ [] ∧ Accepts a u ∧ Accepts (.star a) v := by
  intro r s h
  induction h with
  | eps => intro a ha; cases ha
  | pred _ => intro a ha; cases ha
  | cat _ _ _ _ => intro a ha; cases ha
  | altL _ _ => intro a ha; cases ha
  | altR _ _ => intro a ha; cases ha
  | starNil => intro a _; exact Or.inl rfl
  | @starCat b u v hu hv ihu ihv =>
      intro a ha
      injection ha with ha'
      subst ha'
      by_cases hune : u = []
      · subst hune
        simpa using ihv _ rfl
      · exact Or.inr ⟨u, v, rfl, hune, hu, hv⟩

theorem accepts_deriv (r : RE) (c : Char) (s : List Char) :
    Accepts (deriv r c) s ↔ Accepts r (c :: s) := by
  induction r generalizing s with
  | fail => simp [deriv, accepts_fail_iff]
  | eps =>
      simp only [deriv, accepts_fail_iff, false_iff]
      intro h; cases h
  | pred p =>
      simp only [deriv]
      by_cases hp : p c = true
      · rw [if_pos hp]
        simp only [accepts_eps_iff, accepts_pred_iff, List.cons.injEq]
        constructor
        · rintro rfl; exact ⟨c, ⟨rfl, rfl⟩, hp⟩
        · rintro ⟨d, ⟨rfl, rfl⟩, hpd⟩; rfl
      · rw [if_neg hp]
        simp [accepts_fail_iff, accepts_pred_iff, hp]
  | cat a b iha ihb =>
      simp only [deriv]
      by_cases hn : nullable a = true
      · rw [if_pos hn]
        simp only [accepts_alt_iff, accepts_cat_iff]
        constructor
        · rintro (⟨u, v, rfl, hu, hv⟩ | hb)
          · exact ⟨c :: u, v, rfl, (iha u).mp hu, hv⟩
          · exact ⟨[], c :: s, rfl, (nullable_iff a).mp hn, (ihb s).mp hb⟩
        · rintro ⟨u, v, huv, hu, hv⟩
          cases u with
          | nil =>
              right
              apply (ihb s).mpr
              have hv' : v = c :: s := by simpa using huv.symm
              rw [hv'] at hv
              exact hv
          | cons d u' =>
              left
              injection huv with h1 h2
              subst h1
              exact ⟨u', v, h2, (iha u').mpr hu, hv⟩
      · rw [if_neg hn]
        simp only [accepts_cat_iff]
        constructor
        · rintro ⟨u, v, rfl, hu, hv⟩
          exact ⟨c :: u, v, rfl, (iha u).mp hu, hv⟩
        · rintro ⟨u, v, huv, hu, hv⟩
          cases u with
          | nil =>
              exact absurd ((nullable_iff a).mpr hu) hn
          | cons d u' =>
              injection huv with h1 h2
              subst h1
              exact ⟨u', v, h2, (iha u').mpr hu, hv⟩
  | alt a b iha ihb =>
      simp [deriv, accepts_alt_iff, iha, ihb]
  | star a ih =>
      simp only [deriv, accepts_cat_iff]
      constructor
      · rintro ⟨u, v, rfl, hu, hv⟩
        exact .starCat ((ih u).mp hu) hv
      · intro h
        rcases accepts_star_head h a rfl with h0 | ⟨u, v, huv, hne, hu, hv⟩
        · cases h0
        · cases u with
          | nil => exact absurd rfl hne
          | cons d u' =>
              injection huv with h1 h2
              subst h1
              exact ⟨u', v, h2, (ih u').mpr hu, hv⟩

theorem accept_iff (r : RE) (s : List Char) : accept r s = true ↔ Accepts r s := by
  induction s generalizing r with
  | nil => exact nullable_iff r
  | cons c s ih => simpa [accept] using (ih (deriv r c)).trans (accepts_deriv r c s)

instance decidableAccepts (r : RE) (s : List Char) : Decidable (Accepts r s) :=
  decidable_of_iff (accept r s = true) (accept_iff r s)

/-- Escaped literal: the regex that matches exactly the string `w`
(the code produces it with `regex.escape`). -/
def lit (w : List Char) : RE :=
  w.foldr (fun c r => .cat (.pred (fun d => d == c)) r) .eps

theorem accepts_lit (w s : List Char) : Accepts (lit w) s ↔ s = w := by
  induction w generalizing s with
  | nil => simp [lit, accepts_eps_iff]
  | cons c w ih =>
      simp only [lit, List.foldr_cons]
      rw [accepts_cat_iff]
      constructor
      · rintro ⟨u, v, rfl, hu, hv⟩
        rw [accepts_pred_iff] at hu
        rcases hu with ⟨d, rfl, hd⟩
        have : d = c := by simpa using hd
        subst this
        have : v = w := (ih v).mp hv
        subst this
        rfl
      · rintro rfl
        exact ⟨[c], w, rfl, (accepts_pred_iff _ _).mpr ⟨c, rfl, by simp⟩, (ih w).mpr rfl⟩

/-- Alternation of escaped literals, as produced by joining with `|`. -/
def litAlt (ws : List (List Char)) : RE :=
  ws.foldr (fun w r => .alt (lit w) r) .fail

theorem accepts_litAlt (ws : List (List Char)) (s : List Char) :
    Accepts (litAlt ws) s ↔ s ∈ ws := by
  induction ws with
  | nil => simp [litAlt, accepts_fail_iff]
  | cons w ws ih =>
      simp [litAlt, accepts_alt_iff, accepts_lit, ih] at *
      tauto

theorem accepts_cat_lit_right (r : RE) (w s : List Char) :
    Accepts (.cat r (lit w)) s ↔ ∃ u, s = u ++ w ∧ Accepts r u := by
  rw [accepts_cat_iff]
  constructor
  · rintro ⟨u, v, rfl, hu, hv⟩
    rw [accepts_lit] at hv
    subst hv
    exact ⟨u, rfl, hu⟩
  · rintro ⟨u, rfl, hu⟩
    exact ⟨u, w, rfl, hu, (accepts_lit w w).mpr rfl⟩

/-- Strings matched by `star r` are exactly concatenations of strings
matched by `r`. -/
theorem accepts_star_iff (a : RE) (s : List Char) :
    Accepts (.star a) s ↔
      ∃ ps : List (List Char), s = ps.flatten ∧ ∀ u ∈ ps, Accepts a u := by
  constructor
  · suffices h : ∀ {r t}, Accepts r t → ∀ b, r = .star b →
        ∃ ps : List (List Char), t = ps.flatten ∧ ∀ u ∈ ps, Accepts b u by
      intro hs; exact h hs a rfl
    intro r t h
    induction h with
    | eps => intro b hb; cases hb
    | pred _ => intro b hb; cases hb
    | cat _ _ _ _ => intro b hb; cases hb
    | altL _ _ => intro b hb; cases hb
    | altR _ _ => intro b hb; cases hb
    | starNil => intro b _; exact ⟨[], rfl, by simp⟩
    | @starCat r0 u v hu hv ihu ihv =>
        intro b hb
        injection hb with hb'
        subst hb'
        rcases ihv _ rfl with ⟨ps, rfl, hps⟩
        refine ⟨u :: ps, rfl, ?_⟩
        intro x hx
        rcases List.mem_cons.mp hx with rfl | hx'
        · exact hu
        · exact hps x hx'
  · rintro ⟨ps, rfl, hps⟩
    induction ps with
    | nil => exact .starNil
    | cons u ps ih =>
        simp only [List.flatten_cons]
        exact .starCat (hps u (by simp)) (ih (fun x hx => hps x (by simp [hx])))

/-! ### String utilities

Python string primitives (`find`, `rfind`, slicing, `split`) on `List Char`. -/

/-- Split at the first occurrence of `sub` (Python `s.find(sub)` plus
slicing): `some (a, b)` means `s = a ++ sub ++ b` and the occurrence at
`a.length` is the leftmost one. -/
def splitFirst (sub : List Char) : List Char → Option (List Char × List Char)
  | [] => if sub.isEmpty then some ([], []) else none
  | c :: t =>
      if sub.isPrefixOf (c :: t) then some ([], (c :: t).drop sub.length)
      else (splitFirst sub t).map (fun q => (c :: q.1, q.2))

/-- Does `s` contain `sub` as a contiguous substring? -/
def containsSub (sub s : List Char) : Bool := (splitFirst sub s).isSome

/-- Index of the last occurrence of `sub` in `s` (Python `s.rfind(sub)`),
`none` when there is none. -/
def rfindSub (sub s : List Char) : Option Nat :=
  ((List.range (s.length + 1)).filter (fun i => sub.isPrefixOf (s.drop i))).getLast?

/-- Split on every occurrence of a (nonempty) separator, left to right
(Python `s.split(sep)`).  The fuel bounds the number of pieces; the
remainder shrinks at every step, so `s.length + 1` is always enough. -/
def splitSepF (sep : List Char) : Nat → List Char → List (List Char)
  | 0, s => [s]
  | fuel + 1, s =>
      match splitFirst sep s with
      | none => [s]
      | some (a, b) => a :: splitSepF sep fuel b

/-- Python `content.split(' -> ')`. -/
def splitArrowSegs (s : List Char) : List (List Char) :=
  splitSepF " -> ".data (s.length + 1) s

/-- Join a list of strings with a separator (Python `sep.join(xs)`). -/
def joinSep (sep : List Char) : List (List Char) → List Char
  | [] => []
  | [x] => x
  | x :: xs => x ++ sep ++ joinSep sep xs

/-- De-duplication keeping first occurrences, with an explicit `seen`
accumulator exactly as in the Python loop of `get_verified_blocks`. -/
def dedupSeen {α : Type _} [DecidableEq α] (seen : List α) : List α → List α
  | [] => []
  | b :: t => if b ∈ seen then dedupSeen seen t else b :: dedupSeen (b :: seen) t

/-- De-duplicate a list keeping the first occurrence of each element. -/
def dedupKeepFirst {α : Type _} [DecidableEq α] (l : List α) : List α := dedupSeen [] l

/-- Association-list lookup (Python `dict` membership/access; keys compared
by value, insertion order preserved by appending on the right). -/
def alookup (k : List Char) : List (List Char × Nat) → Option Nat
  | [] => none
  | (k', v) :: t => if k = k' then some v else alookup k t

/-! ### S-expressions and the arity analyzer -/

mutual
/-- S-expression trees: an atom, or an application of a head symbol to
arguments (Python: `str` or `list` with the head at index 0). -/
inductive SExp where
  | atom (s : List Char)
  | app (fn : List Char) (args : SArgs)
/-- Argument lists of an application. -/
inductive SArgs where
  | anil
  | acons (e : SExp) (es : SArgs)
end

/-- Number of arguments (`len(sexp) - 1` in Python). -/
def SArgs.alen : SArgs → Nat
  | .anil => 0
  | .acons _ es => 1 + es.alen

mutual
/-- `infer_sexp_arities`: walk the tree, fixing each symbol's arity on first
sight (`dict.setdefault`) and raising `ValueError` on a conflict.  The map
is an insertion-ordered association list, appended on the right. -/
def inferSexpArities : SExp → List (List Char × Nat) → Except Err (List (List Char × Nat))
  | .atom s, m =>
      match alookup s m with
      | none => .ok (m ++ [(s, 0)])
      | some v => if v = 0 then .ok m else .error .valueError
  | .app fn args, m => do
      let m1 ←
        if fn = "not".data then pure m
        else
          match alookup fn m with
          | none => pure (m ++ [(fn, args.alen)])
          | some v => if v = args.alen then pure m else Except.error Err.valueError
      inferSexpArgsArities args m1
/-- Arity inference over an argument list, threading the map left to right. -/
def inferSexpArgsArities : SArgs → List (List Char × Nat) → Except Err (List (List Char × Nat))
  | .anil, m => .ok m
  | .acons e es, m => do
      let m1 ← inferSexpArities e m
      inferSexpArgsArities es m1
end

/-- Tokens of the s-expression reader. -/
inductive STok where
  | lpar
  | rpar
  | name (s : List Char)
deriving DecidableEq

/-- Is `c` a token delimiter? -/
def sexpDelim (c : Char) : Bool := c = '(' || c = ')' || c = ' '

/-- Modelled from the spec: tokenizer half of the external `util.parse_sexp`
(not part of this repository's sources).  Splits the input into
parentheses and maximal atom runs, discarding spaces.  Fuel decreases at
every step, so `s.length + 1` is always enough. -/
def tokenizeF : Nat → List Char → List STok
  | 0, _ => []
  | _ + 1, [] => []
  | fuel + 1, c :: t =>
      if c = '(' then .lpar :: tokenizeF fuel t
      else if c = ')' then .rpar :: tokenizeF fuel t
      else if c = ' ' then tokenizeF fuel t
      else .name (c :: t.takeWhile (fun d => !sexpDelim d)) ::
             tokenizeF fuel (t.dropWhile (fun d => !sexpDelim d))

mutual
/-- Modelled from the spec: recursive-descent half of `util.parse_sexp`
(§4.2 of the design: "parse to a tree (atom leaf, or [head, ...args])",
the head being a symbol). -/
def parseExpF : Nat → List STok → Option (SExp × List STok)
  | 0, _ => none
  | fuel + 1, ts =>
      match ts with
      | .name s :: rest => some (.atom s, rest)
      | .lpar :: .name fn :: rest =>
          match parseArgsF fuel rest with
          | some (args, .rpar :: rest2) => some (.app fn args, rest2)
          | _ => none
      | _ => none
/-- Zero or more expressions up to (but not consuming) a closing paren. -/
def parseArgsF : Nat → List STok → Option (SArgs × List STok)
  | 0, _ => none
  | fuel + 1, ts =>
      match ts with
      | .rpar :: _ => some (.anil, ts)
      | _ =>
          match parseExpF fuel ts with
          | some (e, rest) =>
              match parseArgsF fuel rest with
              | some (es, rest2) => some (.acons e es, rest2)
              | none => none
          | none => none
end

/-- Modelled from the spec: `util.parse_sexp` reads one s-expression from
the front of the string (trailing input is ignored by the caller). -/
def parseSexp (s : List Char) : Option SExp :=
  let ts := tokenizeF (s.length + 1) s
  (parseExpF (ts.length + 1) ts).map (·.1)

/-- The "toplevel" symbol of a parsed rule segment (`infer_arities`): for
`(not X)` with a single argument it is `X`'s head (or `X` itself when
atomic); otherwise the expression's own head.  For an atom, Python's
`sexp[0]` is its first character. -/
def sexpToplevel : SExp → List Char
  | .atom a => a.take 1
  | .app fn .anil => fn
  | .app fn (.acons e es) =>
      if fn = "not".data && es.alen = 0 then
        match e with
        | .atom a => a
        | .app f _ => f
      else fn

/-- `infer_arities`: parse one implication segment and infer its arity map
and toplevel symbol.  A reader failure is a `ValueError`, as is an arity
conflict inside the segment itself (raised by `infer_sexp_arities`). -/
def inferArities (rule : List Char) : Except Err (List (List Char × Nat) × List Char) :=
  match parseSexp rule with
  | none => .error .valueError
  | some sexp => do
      let m ← inferSexpArities sexp []
      .ok (m, sexpToplevel sexp)

/-! ### The opaque external derivation engine -/

/-- Operations the completion engine consumes from the external `domain`
module (out of scope per the spec; kept fully opaque). -/
structure DomainModel where
  Universe : Type
  Choice : Type
  Val : Type
  clone : Universe → Universe
  incorporate : Universe → List Char → Universe
  derivationActions : Universe → List (List Char)
  tacticActions : List (List Char)
  applyAction : Universe → List Char → List Choice
  valueOf : Universe → Choice → Val
  cleanDtype : Choice → Universe → Val
  defineStep : Universe → List Char → Choice → Universe
  derivationDone : Universe → Option (List Char) → Option Bool × Bool

/-- A derivation: a universe plus the recorded goal. -/
structure Derivation (D : DomainModel) where
  univ : D.Universe
  goal : Option (List Char)

/-- The completion engine's configuration (`PeanoCompletionEngine.__init__`).
`eqForm` models the external `util.format_infix` (from the spec: converts
an infix equation to the engine's call form). -/
structure Engine (D : DomainModel) where
  startDerivation : Derivation D
  formatFn : D.Val → List Char
  startMarker : List Char
  endMarker : List Char
  inferAtoms : Bool
  doneWhenExhausted : Bool
  eqForm : List Char → List Char

/-- The sentinel no-inference token (`INFER_ERROR`). -/
def inferError : List Char := "nothing".data

/-! ### Block scanner -/

/-- `_get_open_block`: locate the last start and end markers; the block is
open iff a start marker exists with no end marker after it. -/
def openBlock {D : DomainModel} (E : Engine D) (p : List Char) : Option (List Char) :=
  match rfindSub E.startMarker p, rfindSub E.endMarker p with
  | none, _ => none
  | some i, none => some (p.drop (i + E.startMarker.length))
  | some i, some j => if j > i then none else some (p.drop (i + E.startMarker.length))

/-- The scanning `while` loop of `get_verified_blocks`: find a start
marker, find the next end marker from the start marker's position, split
the span between them on its first colon (missing colon: `ValueError`),
and resume one character after the end marker's position.  Fuel bounds
the iteration count; the text shrinks every round, so `s.length + 1`
suffices (see `rawBlocks`). -/
def scanBlocks (sm em : List Char) : Nat → List Char → Except Err (List (List Char × List Char))
  | 0, _ => .ok []
  | fuel + 1, s =>
      match splitFirst sm s with
      | none => .ok []
      | some (_, after) =>
          match splitFirst em (sm ++ after) with
          | none => .ok []
          | some (pre2, _) =>
              match splitFirst [':'] (after.take (pre2.length - sm.length)) with
              | none => .error .valueError
              | some (k, c) =>
                  match scanBlocks sm em fuel ((sm ++ after).drop (pre2.length + 1)) with
                  | .error e => .error e
                  | .ok rest => .ok ((k, c) :: rest)

/-- All closed `(keyword, content)` spans of `s`, in order, duplicates
included. -/
def rawBlocks (sm em s : List Char) : Except Err (List (List Char × List Char)) :=
  scanBlocks sm em (s.length + 1) s

/-- `get_verified_blocks`: scan, then de-duplicate keeping first
occurrences. -/
def getVerifiedBlocks {D : DomainModel} (E : Engine D) (p : List Char) :
    Except Err (List (List Char × List Char)) :=
  (rawBlocks E.startMarker E.endMarker p).map dedupKeepFirst

/-! ### Choice enumeration and derivation replay -/

/-- Does the action name match `axiom\d+` (fullmatch)? -/
def isAxiomName (a : List Char) : Bool :=
  "axiom".data.isPrefixOf a && 5 < a.length && (a.drop 5).all (fun c => c.isDigit)

/-- `enumerate_choices`: apply every enabled action (initial action, tactic
action, or synthetic `axiom<i>`) to the universe and collect the results.
Python iterates sets here; the model fixes first-seen order, which no
claim depends on. -/
def enumerateChoices {D : DomainModel} (E : Engine D) (u : D.Universe) : List D.Choice :=
  let initialActions :=
    dedupKeepFirst (D.derivationActions E.startDerivation.univ ++ D.tacticActions)
  let arrows := dedupKeepFirst (D.derivationActions u ++ initialActions)
  (arrows.filter (fun a => initialActions.contains a || isAxiomName a)).flatMap
    (fun a => D.applyAction u a)

/-- Replay state: the universe under construction, the arity map, and the
recorded goal. -/
structure FFState (D : DomainModel) where
  univ : D.Universe
  arities : List (List Char × Nat)
  goal : Option (List Char)

/-- The declaration incorporated for a newly seen symbol of the given
arity: arity 0 is an object; otherwise a function into `prop` when the
symbol is the segment's toplevel, else into `object`. -/
def arityDecl (k : List Char) (v : Nat) (top : List Char) : List Char :=
  if v = 0 then "let ".data ++ k ++ " : object.".data
  else
    k ++ " : [".data ++ joinSep " -> ".data (List.replicate v "object".data) ++
      " -> ".data ++ (if k = top then "prop".data else "object".data) ++ "].".data

/-- The inner `for k, v in new_arities.items()` loop of the `axiom` replay
branch: declare unseen symbols, and stop with the ignore flag on the first
conflict with an already fixed arity. -/
def declareNew {D : DomainModel} (E : Engine D) (st : FFState D) (top : List Char) :
    List (List Char × Nat) → FFState D × Bool
  | [] => (st, false)
  | (k, v) :: rest =>
      match alookup k st.arities with
      | none =>
          declareNew E ⟨D.incorporate st.univ (arityDecl k v top),
                        st.arities ++ [(k, v)], st.goal⟩ top rest
      | some w => if v ≠ w then (st, true) else declareNew E st top rest

/-- The outer loop over the implication segments of an axiom's content:
infer each segment's arities (which may raise), declare its new symbols,
and stop with the ignore flag as soon as one conflicts. -/
def declareSegs {D : DomainModel} (E : Engine D) (st : FFState D) :
    List (List Char) → Except Err (FFState D × Bool)
  | [] => .ok (st, false)
  | seg :: rest =>
      match inferArities seg with
      | .error e => .error e
      | .ok (m, top) =>
          match declareNew E st top m with
          | (st', true) => .ok (st', true)
          | (st', false) => declareSegs E st' rest

/-- Name of the synthetic step registered for a replayed inference. -/
def stepName (i : Nat) : List Char := "!step".data ++ (toString i).data

/-- Name of the synthetic axiom incorporated at block index `i`. -/
def axName (i : Nat) : List Char := "axiom".data ++ (toString i).data

/-- Name of the synthetic equation incorporated at block index `i`. -/
def eqName (i : Nat) : List Char := "eq".data ++ (toString i).data

/-- Wrap the content in brackets when it contains an arrow
(`block_content.find('->') != -1`). -/
def wrapArrows (ct : List Char) : List Char :=
  if containsSub "->".data ct then '[' :: ct ++ [']'] else ct

/-- One iteration of the replay loop of `fast_forward_derivation`, at block
index `i`. -/
def ffStep {D : DomainModel} (E : Engine D) (i : Nat) (st : FFState D) :
    List Char × List Char → Except Err (FFState D)
  | (bt, bc) =>
    if bt = "prop".data then
      .ok (if E.inferAtoms then st
           else ⟨D.incorporate st.univ (bc ++ " : [object -> prop].".data),
                 st.arities, st.goal⟩)
    else if bt = "relation".data then
      .ok (if E.inferAtoms then st
           else ⟨D.incorporate st.univ (bc ++ " : [object -> object -> prop].".data),
                 st.arities, st.goal⟩)
    else if bt = "axiom".data then
      if E.inferAtoms then
        match declareSegs E st (splitArrowSegs bc) with
        | .error e => .error e
        | .ok (st', true) => .ok st'
        | .ok (st', false) =>
            .ok ⟨D.incorporate st'.univ
                   (axName i ++ " : ".data ++ wrapArrows bc ++ ".".data),
                 st'.arities, st'.goal⟩
      else
        .ok ⟨D.incorporate st.univ
               (axName i ++ " : ".data ++ wrapArrows bc ++ ".".data),
             st.arities, st.goal⟩
    else if bt = "object".data then
      .ok (if E.inferAtoms then st
           else ⟨D.incorporate st.univ ("let ".data ++ bc ++ " : object.".data),
                 st.arities, st.goal⟩)
    else if bt = "goal".data then
      .ok ⟨st.univ, st.arities, some bc⟩
    else if bt = "var".data then
      .ok ⟨D.incorporate st.univ ("let ".data ++ bc ++ " : real.".data),
           st.arities, st.goal⟩
    else if bt = "eq".data then
      .ok ⟨D.incorporate st.univ (eqName i ++ " : ".data ++ E.eqForm bc ++ ".".data),
           st.arities, st.goal⟩
    else if bt = "infer".data then
      match (enumerateChoices E st.univ).find?
              (fun c => E.formatFn (D.valueOf st.univ c) == bc) with
      | some c => .ok ⟨D.defineStep st.univ (stepName i) c, st.arities, st.goal⟩
      | none => if bc ≠ inferError then .error .assertionError else .ok st
    else .error .valueError

/-- The replay fold over the verified blocks, with the running index. -/
def ffRun {D : DomainModel} (E : Engine D) : Nat → FFState D →
    List (List Char × List Char) → Except Err (FFState D)
  | _, st, [] => .ok st
  | i, st, b :: bs =>
      match ffStep E i st b with
      | .error e => .error e
      | .ok st' => ffRun E (i + 1) st' bs

/-- The baseline declarations incorporated before replaying. -/
def baseDecls : List Char := "object : type. not : [prop -> prop].".data

/-- `fast_forward_derivation`: clone the starting universe, incorporate the
baseline, replay every verified block in order, and return a derivation
with the reconstructed universe and recorded goal. -/
def fastForward {D : DomainModel} (E : Engine D) (bs : List (List Char × List Char)) :
    Except Err (Derivation D) :=
  match ffRun E 0 ⟨D.incorporate (D.clone E.startDerivation.univ) baseDecls, [], none⟩ bs with
  | .error e => .error e
  | .ok st => .ok ⟨st.univ, st.goal⟩

/-! ### Grammar builders -/

/-- The identifier character class `[a-zA-Z0-9-_]`. -/
def identChar (c : Char) : Bool := c.isAlpha || c.isDigit || c = '-' || c = '_'

/-- The variable character class `[a-z0-9-_]`. -/
def varChar (c : Char) : Bool := ('a' ≤ c && c ≤ 'z') || c.isDigit || c = '-' || c = '_'

/-- The equation character class `[\(\)a-zA-Z0-9\-=+\*/ ]`. -/
def eqChar (c : Char) : Bool :=
  c = '(' || c = ')' || c.isAlpha || c.isDigit || c = '-' || c = '=' ||
    c = '+' || c = '*' || c = '/' || c = ' '

/-- `n`-fold concatenation of a regex. -/
def rePow (r : RE) : Nat → RE
  | 0 => .eps
  | n + 1 => .cat r (rePow r n)

/-- Bounded repetition `r{lo,hi}`. -/
def reRepRange (r : RE) (lo hi : Nat) : RE :=
  (((List.range (hi + 1)).filter (fun n => lo ≤ n)).map (rePow r)).foldr .alt .fail

/-- One-or-more repetition `(r)+`. -/
def rePlus (r : RE) : RE := .cat r (.star r)

/-- `regex_not_containing(m)`: alternatives `m[:i]` followed by one
character other than `m[i]`, starred. -/
def reNotContaining (m : List Char) : RE :=
  .star (((List.range m.length).map
    (fun i => RE.cat (lit (m.take i)) (.pred (fun c => !(c == m.getD i ' '))))).foldr .alt .fail)

/-- The quote character prefixing bound variables. -/
def qc : Char := Char.ofNat 39

/-- `_make_freeform_proposition_regex`: the fixed recursive grammar of
free-form mode, terminated by the end marker. -/
def reFreeform {D : DomainModel} (E : Engine D) (isGoal : Bool) : RE :=
  let atomR := reRepRange (.pred identChar) 1 50
  let paramR := RE.cat (.pred (fun c => c == qc)) (.pred (fun c => 'a' ≤ c && c ≤ 'z'))
  let argR := if isGoal then atomR else .alt paramR atomR
  let termR := .alt argR
    (.cat (lit "(".data)
      (.cat atomR (.cat (reRepRange (.cat (lit " ".data) argR) 1 2) (lit ")".data))))
  let posR := .cat (lit "(".data)
    (.cat atomR (.cat (reRepRange (.cat (lit " ".data) termR) 1 2) (lit ")".data)))
  let propR := .alt posR (.cat (lit "(not ".data) (.cat posR (lit ")".data)))
  if isGoal then .cat propR (lit E.endMarker)
  else .cat propR (.cat (.star (.cat (lit " -> ".data) propR)) (lit E.endMarker))

/-- A positive atomic proposition `(p o)`. -/
def posProp (p o : List Char) : List Char :=
  "(".data ++ p ++ " ".data ++ o ++ ")".data

/-- The negation wrapper `(not X)`. -/
def negWrap (s : List Char) : List Char := "(not ".data ++ s ++ ")".data

/-- Contents of the verified `prop` blocks, in order. -/
def propsOf (bs : List (List Char × List Char)) : List (List Char) :=
  (bs.filter (fun b => b.1 = "prop".data)).map (·.2)

/-- Contents of the verified `object` blocks, in order. -/
def objectsOf (bs : List (List Char × List Char)) : List (List Char) :=
  (bs.filter (fun b => b.1 = "object".data)).map (·.2)

/-- The premise strings of enumerated mode: every declared predicate
applied to every declared object or to the bound variable, positive and
negated. -/
def premisesOf (bs : List (List Char × List Char)) : List (List Char) :=
  (propsOf bs).flatMap (fun p =>
    (objectsOf bs ++ [[qc, 'x']]).flatMap (fun o =>
      [posProp p o, negWrap (posProp p o)]))

/-- The conclusion strings of enumerated mode: as premises, but only for
arguments not starting with the quote character. -/
def conclusionsOf (bs : List (List Char × List Char)) : List (List Char) :=
  (propsOf bs).flatMap (fun p =>
    (objectsOf bs ++ [[qc, 'x']]).flatMap (fun o =>
      if o.headD ' ' = qc then [] else [posProp p o, negWrap (posProp p o)]))

/-- `_make_proposition_regex`: build the enumerated-mode pattern for axiom
or goal content.  No conclusions yields the always-failing sub-pattern
(`$.`); no premises is the fatal `assert False, 'Empty theory'`. -/
def makePropositionRegex {D : DomainModel} (E : Engine D)
    (bs : List (List Char × List Char)) (isGoal : Bool) : Except Err RE :=
  let premises := premisesOf bs
  let conclusions := conclusionsOf bs
  let concR := if conclusions.isEmpty then RE.fail else litAlt conclusions
  if premises.isEmpty then .error .assertionError
  else if isGoal then .ok (.cat concR (lit E.endMarker))
  else .ok (.cat (.alt concR
                   (.cat (rePlus (.cat (litAlt premises) (lit " -> ".data)))
                         (litAlt premises)))
                 (lit E.endMarker))

/-! ### The orchestrator -/

/-- The legal next keywords, from the verified blocks seen so far. -/
def keywordList {D : DomainModel} (E : Engine D)
    (bs : List (List Char × List Char)) : List (List Char) :=
  let prev := bs.map (·.1)
  ["prop".data, "object".data, "var".data, "relation".data, "axiom".data]
    ++ (if E.inferAtoms || prev.contains "axiom".data then ["infer".data, "goal".data] else [])
    ++ (if prev.contains "var".data then ["eq".data] else [])

/-- The rendered choices of the replayed universe that do not already occur
as a previous `infer` block's content. -/
def newInferences {D : DomainModel} (E : Engine D)
    (bs : List (List Char × List Char)) (d : Derivation D) : List (List Char) :=
  ((enumerateChoices E d.univ).map (fun c => E.formatFn (D.cleanDtype c d.univ))).filter
    (fun r => !(bs.contains ("infer".data, r)))

/-- `complete(prefix)`: the pattern the next characters must match.  (The
Python source also builds an unused "anything then the end marker" pattern
before the `infer` branch and discards it; it has no effect and is not
modelled.) -/
def complete {D : DomainModel} (E : Engine D) (p : List Char) : Except Err RE :=
  match openBlock E p with
  | none => .ok (.cat (reNotContaining E.startMarker) (lit E.startMarker))
  | some b =>
      if b.isEmpty then
        match getVerifiedBlocks E p with
        | .error e => .error e
        | .ok bs => .ok (.cat (litAlt (keywordList E bs)) (lit [':']))
      else
        match splitFirst [':'] b with
        | none => .error .valueError
        | some (kw, ct) =>
            if !ct.isEmpty then .error .assertionError
            else if kw = "prop".data || kw = "object".data || kw = "relation".data then
              .ok (.cat (reRepRange (.pred identChar) 1 50) (lit E.endMarker))
            else if kw = "var".data then
              .ok (.cat (reRepRange (.pred varChar) 1 50) (lit E.endMarker))
            else if kw = "eq".data then
              .ok (.cat (rePlus (.pred eqChar)) (lit E.endMarker))
            else if kw = "axiom".data || kw = "goal".data then
              if E.inferAtoms then .ok (reFreeform E (kw = "goal".data))
              else
                match getVerifiedBlocks E p with
                | .error e => .error e
                | .ok bs => makePropositionRegex E bs (kw = "goal".data)
            else if kw = "infer".data then
              match getVerifiedBlocks E p with
              | .error e => .error e
              | .ok bs =>
                  match fastForward E bs with
                  | .error e => .error e
                  | .ok d =>
                      let nc := newInferences E bs d
                      .ok (.cat (litAlt (if nc.isEmpty then [inferError] else nc))
                                (lit E.endMarker))
            else .error .valueError

/-- `is_complete(prefix)`: report the exhausted outcome when the sentinel
occurs among the verified contents, else replay and delegate to the
engine's goal-satisfaction check. -/
def isComplete {D : DomainModel} (E : Engine D) (p : List Char) :
    Except Err (Option Bool × Bool) :=
  match getVerifiedBlocks E p with
  | .error e => .error e
  | .ok bs =>
      if (bs.map (·.2)).contains inferError then
        .ok (if E.doneWhenExhausted then (some true, false) else (none, false))
      else
        match fastForward E bs with
        | .error e => .error e
        | .ok d => .ok (D.derivationDone d.univ d.goal)

/-! ### Generic language lemmas -/

theorem accepts_litAlt_end (ws : List (List Char)) (e s : List Char) :
    Accepts (.cat (litAlt ws) (lit e)) s ↔ ∃ w ∈ ws, s = w ++ e := by
  rw [accepts_cat_lit_right]
  constructor
  · rintro ⟨u, rfl, hu⟩; exact ⟨u, (accepts_litAlt ws u).mp hu, rfl⟩
  · rintro ⟨w, hw, rfl⟩; exact ⟨w, rfl, (accepts_litAlt ws w).mpr hw⟩

theorem contains_iff_mem {α : Type _} [BEq α] [LawfulBEq α] (l : List α) (a : α) :
    l.contains a = true ↔ a ∈ l := by
  simp [List.contains]

theorem except_map_ok {α β γ : Type _} (f : α → β) (e : Except γ α) (b : β)
    (h : e.map f = .ok b) : ∃ a, e = .ok a ∧ f a = b := by
  cases e with
  | error e => simp [Except.map] at h
  | ok a => exact ⟨a, rfl, by simpa [Except.map] using h⟩

/-! ### Demonstration instances

A small concrete instance of the external engine, used to evaluate the
model on concrete transcripts: universes record the list of incorporated
strings, there is a single tactic action that produces the two facts `f1`
and `f2`, choices and values are strings rendered as themselves, and the
goal check always returns (proved, True). -/

@[reducible] def demoDomain : DomainModel :=
  ⟨List (List Char), List Char, List Char, id, (fun u s => u ++ [s]),
   (fun _ => []), [['t']], (fun _ _ => [['f', '1'], ['f', '2']]),
   (fun _ c => c), (fun c _ => c), (fun u n _ => u ++ [n]),
   (fun _ _ => (some true, true))⟩

/-- Demo engine in free-form mode (the source's default flags and markers). -/
@[reducible] def demoEngine : Engine demoDomain :=
  ⟨⟨[], none⟩, id, "[[".data, "]]".data, true, false, id⟩

/-- Demo engine in enumerated mode (`infer_atoms=False`). -/
@[reducible] def demoEngineEnum : Engine demoDomain :=
  ⟨⟨[], none⟩, id, "[[".data, "]]".data, false, false, id⟩

/-! ### C10: `complete` outside the three boundary states -/

/-- C10: when the open block already has a colon followed by at least one
content character, `complete` raises (`assert not block_contents`) instead
of returning a pattern. -/
theorem complete_partial_content_asserts {D : DomainModel} (E : Engine D)
    (p b k c : List Char)
    (hob : openBlock E p = some b)
    (hsp : splitFirst [':'] b = some (k, c))
    (hc : c ≠ []) :
    complete E p = .error .assertionError := by
  have hbne : b ≠ [] := by
    intro hb
    rw [hb] at hsp
    simp [splitFirst, List.isEmpty] at hsp
  have hbe : b.isEmpty = false := by
    cases b with
    | nil => exact absurd rfl hbne
    | cons x t => rfl
  have hce : c.isEmpty = false := by
    cases c with
    | nil => exact absurd rfl hc
    | cons x t => rfl
  unfold complete
  simp [hob, hbe, hsp, hce]

/-- Witness for C10 at the transcript `[[prop:x`. -/
theorem complete_partial_content_asserts_witness :
    openBlock demoEngine "[[prop:x".data = some "prop:x".data ∧
    splitFirst [':'] "prop:x".data = some ("prop".data, "x".data) ∧
    complete demoEngine "[[prop:x".data = .error .assertionError :=
  ⟨rfl, rfl,
   complete_partial_content_asserts demoEngine _ _ _ _ rfl rfl (by decide)⟩

/-! ### C2: the exhausted-inferences test in `is_complete` -/

/-- C2 (code bug): `is_complete` tests the sentinel against the contents of
ALL verified blocks (`INFER_ERROR in [v for k, v in blocks]`), not only
those with keyword `infer`.  A `prop` block whose content happens to be the
sentinel string already takes the exhausted branch, skipping the replay and
goal check the claim requires: here the delegate answer would be
`(some true, true)`, but the code reports the undetermined `(none, false)`. -/
theorem isComplete_sentinel_scans_all_keywords :
    isComplete demoEngine "[[prop:nothing]]".data = .ok (none, false) ∧
    getVerifiedBlocks demoEngine "[[prop:nothing]]".data =
      .ok [("prop".data, "nothing".data)] ∧
    ("infer".data, inferError) ∉ [(("prop".data : List Char), ("nothing".data : List Char))] ∧
    (fastForward demoEngine [("prop".data, "nothing".data)]).map
      (fun d => demoDomain.derivationDone d.univ d.goal) = .ok (some true, true) :=
  ⟨rfl, rfl, by decide, rfl⟩

/-! ### C8: replay of a verified `infer` block -/

/-- C8: during replay, an `infer` block whose content is the rendering of
some enumerable choice registers the named step `!step<i>`; with no match
and content other than the sentinel, replay fails with the assertion; with
no match and the sentinel as content, the block is skipped. -/
theorem ffStep_infer_cases {D : DomainModel} (E : Engine D) (i : Nat)
    (st : FFState D) (bc : List Char) :
    ((∃ c ∈ enumerateChoices E st.univ, E.formatFn (D.valueOf st.univ c) = bc) →
      ∃ c, E.formatFn (D.valueOf st.univ c) = bc ∧
        ffStep E i st ("infer".data, bc) =
          .ok ⟨D.defineStep st.univ (stepName i) c, st.arities, st.goal⟩) ∧
    ((¬∃ c ∈ enumerateChoices E st.univ, E.formatFn (D.valueOf st.univ c) = bc) →
      bc ≠ inferError →
      ffStep E i st ("infer".data, bc) = .error .assertionError) ∧
    ((¬∃ c ∈ enumerateChoices E st.univ, E.formatFn (D.valueOf st.univ c) = bc) →
      bc = inferError →
      ffStep E i st ("infer".data, bc) = .ok st) := by
  refine ⟨?_, ?_, ?_⟩
  · rintro ⟨c, hc, hfmt⟩
    have hsome : ((enumerateChoices E st.univ).find?
        (fun c => E.formatFn (D.valueOf st.univ c) == bc)).isSome := by
      rw [List.find?_isSome]
      exact ⟨c, hc, by simpa using hfmt⟩
    rcases Option.isSome_iff_exists.mp hsome with ⟨c', hc'⟩
    refine ⟨c', by simpa using List.find?_some hc', ?_⟩
    unfold ffStep
    simp +decide only [hc', if_true, if_false]
  · intro hnone hne
    have h0 : (enumerateChoices E st.univ).find?
        (fun c => E.formatFn (D.valueOf st.univ c) == bc) = none := by
      rw [List.find?_eq_none]
      intro c hc
      simp only [beq_iff_eq]
      intro heq
      exact hnone ⟨c, hc, heq⟩
    unfold ffStep
    simp +decide only [h0, if_true, if_false]
    simp [hne]
  · intro hnone heq
    have h0 : (enumerateChoices E st.univ).find?
        (fun c => E.formatFn (D.valueOf st.univ c) == bc) = none := by
      rw [List.find?_eq_none]
      intro c hc
      simp only [beq_iff_eq]
      intro h
      exact hnone ⟨c, hc, h⟩
    unfold ffStep
    simp +decide only [h0, if_true, if_false]
    simp [heq]

/-- Witness for C8 with the demo engine: `f1` is replayed as `!step3`, the
unjustified `f9` is fatal, and the sentinel is skipped. -/
theorem ffStep_infer_cases_witness :
    ffStep demoEngine 3 ⟨[], [], none⟩ ("infer".data, "f1".data) =
      .ok ⟨["!step3".data], [], none⟩ ∧
    ffStep demoEngine 3 ⟨[], [], none⟩ ("infer".data, "f9".data) =
      .error .assertionError ∧
    ffStep demoEngine 3 ⟨[], [], none⟩ ("infer".data, inferError) =
      .ok ⟨[], [], none⟩ := by
  refine ⟨?_, ?_, ?_⟩
  · rcases (ffStep_infer_cases demoEngine 3 ⟨[], [], none⟩ "f1".data).1
        ⟨"f1".data, by decide, by decide⟩ with ⟨c, hc, hstep⟩
    have hc1 : c = "f1".data := hc
    rw [hc1] at hstep
    exact hstep
  · exact (ffStep_infer_cases demoEngine 3 ⟨[], [], none⟩ "f9".data).2.1
      (by decide) (by decide)
  · exact (ffStep_infer_cases demoEngine 3 ⟨[], [], none⟩ inferError).2.2
      (by decide) rfl

/-! ### C3: arity conflicts during axiom replay -/

/-- Is the computation successful? -/
def exceptOk {ε α : Type _} : Except ε α → Bool
  | .ok _ => true
  | .error _ => false

/-- C3 (counterexample): an arity conflict arising inside a single
segment's own inference (`p` used at arity 1 and, within the same
proposition, at arity 0 — conflicting also with the arity 0 fixed for `p`
by the previous axiom) is raised by `infer_sexp_arities` and is not caught
by the replay loop: the call aborts instead of skipping the axiom. -/
theorem fastForward_arity_conflict_aborts :
    fastForward demoEngine
        [("axiom".data, "(q p)".data), ("axiom".data, "(p p)".data)] =
      .error .valueError ∧
    inferArities "(p p)".data = .error .valueError := ⟨rfl, rfl⟩

/-- A conflict-free inference on every segment means the segment scan of an
axiom's content cannot fail. -/
theorem declareSegs_ok_of_inferOk {D : DomainModel} (E : Engine D) :
    ∀ (segs : List (List Char)) (st : FFState D),
      (∀ seg ∈ segs, exceptOk (inferArities seg) = true) →
      ∃ res, declareSegs E st segs = .ok res := by
  intro segs
  induction segs with
  | nil => intro st _; exact ⟨(st, false), rfl⟩
  | cons seg rest ih =>
      intro st h
      have hseg := h seg (by simp)
      cases hinf : inferArities seg with
      | error e => rw [hinf] at hseg; simp [exceptOk] at hseg
      | ok r =>
          rcases r with ⟨m, top⟩
          have hrest : ∀ s ∈ rest, exceptOk (inferArities s) = true :=
            fun s hs => h s (by simp [hs])
          unfold declareSegs
          rw [hinf]
          cases hdn : declareNew E st top m with
          | mk st' flag =>
              cases flag with
              | true => exact ⟨(st', true), by simp [hdn]⟩
              | false =>
                  rcases ih st' hrest with ⟨res, hres⟩
                  exact ⟨res, by simp [hdn, hres]⟩

/-- C3 (amended): during free-form replay of an `axiom` block, when every
` -> ` segment's own arity inference succeeds, the step never aborts; and
when the segment scan stops with the ignore flag (an inferred arity
conflicting with one already fixed in the replay arity map), the block's
result is exactly the scanned state — the synthetic `axiom<i>` is not
incorporated — and replay continues.  (A conflict raised within a single
segment's own inference, by contrast, aborts the call, as the
counterexample shows.) -/
theorem ffStep_axiom_conflict_skips {D : DomainModel} (E : Engine D) (i : Nat)
    (st : FFState D) (bc : List Char) (hIA : E.inferAtoms = true) :
    (∀ st₁, declareSegs E st (splitArrowSegs bc) = .ok (st₁, true) →
        ffStep E i st ("axiom".data, bc) = .ok st₁) ∧
    ((∀ seg ∈ splitArrowSegs bc, exceptOk (inferArities seg) = true) →
        ∃ st', ffStep E i st ("axiom".data, bc) = .ok st') := by
  constructor
  · intro st₁ hds
    unfold ffStep
    simp +decide only [hIA, if_true, if_false, hds]
  · intro hsegs
    rcases declareSegs_ok_of_inferOk E (splitArrowSegs bc) st hsegs with ⟨⟨st', flag⟩, hds⟩
    unfold ffStep
    simp +decide only [hIA, if_true, if_false, hds]
    cases flag with
    | true => exact ⟨st', rfl⟩
    | false => exact ⟨_, rfl⟩

/-- Witness for C3's amended statement: with `p` already fixed at arity 1,
the axiom `(p x y)` (segments inferring fine on their own, `p` now at
arity 2) is skipped in place: no declaration, no axiom, no error. -/
theorem ffStep_axiom_conflict_skips_witness :
    declareSegs demoEngine ⟨[], [("p".data, 1)], none⟩ (splitArrowSegs "(p x y)".data) =
      .ok (⟨[], [("p".data, 1)], none⟩, true) ∧
    (∀ seg ∈ splitArrowSegs "(p x y)".data, exceptOk (inferArities seg) = true) ∧
    ffStep demoEngine 0 ⟨[], [("p".data, 1)], none⟩ ("axiom".data, "(p x y)".data) =
      .ok ⟨[], [("p".data, 1)], none⟩ := by
  refine ⟨rfl, by decide, ?_⟩
  exact (ffStep_axiom_conflict_skips demoEngine 0 _ _ rfl).1 _ rfl

/-! ### C9: degenerate enumerated theories -/

/-- C9: in enumerated mode, no verified `prop` block means no premises and
the fatal empty-theory assertion, for both the axiom and the goal builder;
at least one `prop` but no `object` blocks leaves the builder successful
with an always-failing conclusion alternative, so the goal pattern accepts
no string at all. -/
theorem makePropositionRegex_degenerate {D : DomainModel} (E : Engine D) :
    (∀ bs g, propsOf bs = [] → makePropositionRegex E bs g = .error .assertionError) ∧
    (∀ bs, propsOf bs ≠ [] → objectsOf bs = [] →
      (∃ pat, makePropositionRegex E bs false = .ok pat) ∧
      (∃ pat, makePropositionRegex E bs true = .ok pat ∧ ∀ s, ¬ Accepts pat s)) := by
  constructor
  · intro bs g hp
    have hprem : premisesOf bs = [] := by simp [premisesOf, hp]
    unfold makePropositionRegex
    simp [hprem]
  · intro bs hp ho
    have hconc : conclusionsOf bs = [] := by
      unfold conclusionsOf
      rw [ho]
      simp +decide
    have hprem : premisesOf bs ≠ [] := by
      unfold premisesOf
      rw [ho]
      rcases hpp : propsOf bs with _ | ⟨q, qs⟩
      · exact absurd hpp hp
      · simp
    have h1 : (premisesOf bs).isEmpty = false := by
      cases hq : premisesOf bs with
      | nil => exact absurd hq hprem
      | cons a t => rfl
    constructor
    · cases hmk : makePropositionRegex E bs false with
      | ok r => exact ⟨r, rfl⟩
      | error e =>
          exfalso
          unfold makePropositionRegex at hmk
          simp [hconc, h1] at hmk
    refine ⟨.cat RE.fail (lit E.endMarker), ?_, ?_⟩
    · unfold makePropositionRegex
      simp [hconc, h1]
    · intro s hs
      rw [accepts_cat_iff] at hs
      rcases hs with ⟨u, v, _, hu, _⟩
      exact (accepts_fail_iff u).mp hu

/-- Witness for C9: with only an object declared the builder asserts; with
only a predicate declared the goal pattern exists but rejects `(p a)]]`. -/
theorem makePropositionRegex_degenerate_witness :
    makePropositionRegex demoEngineEnum [("object".data, "a".data)] true =
      .error .assertionError ∧
    (∃ pat, makePropositionRegex demoEngineEnum [("prop".data, "p".data)] true = .ok pat ∧
      ¬ Accepts pat "(p a)]]".data) := by
  constructor
  · exact (makePropositionRegex_degenerate demoEngineEnum).1 _ true (by decide)
  · rcases (makePropositionRegex_degenerate demoEngineEnum).2
        [("prop".data, "p".data)] (by decide) (by decide) with ⟨-, pat, h1, h2⟩
    exact ⟨pat, h1, h2 _⟩

/-! ### C7: the keyword-select pattern -/

/-- Membership in the keyword alternation, unfolded to the configuration
conditions. -/
theorem keywordList_mem {D : DomainModel} (E : Engine D)
    (bs : List (List Char × List Char)) (k : List Char) :
    k ∈ keywordList E bs ↔
      (k ∈ [("prop".data : List Char), "object".data, "var".data,
            "relation".data, "axiom".data] ∨
       ((k = "infer".data ∨ k = "goal".data) ∧
          (E.inferAtoms = true ∨ "axiom".data ∈ bs.map (·.1))) ∨
       (k = "eq".data ∧ "var".data ∈ bs.map (·.1))) := by
  have hax : (E.inferAtoms || (bs.map (·.1)).contains "axiom".data) = true ↔
      (E.inferAtoms = true ∨ "axiom".data ∈ bs.map (·.1)) := by
    rw [Bool.or_eq_true, contains_iff_mem]
  have hvar : ((bs.map (·.1)).contains "var".data) = true ↔
      "var".data ∈ bs.map (·.1) := contains_iff_mem _ _
  unfold keywordList
  simp only [List.mem_append]
  by_cases h1 : E.inferAtoms = true ∨ "axiom".data ∈ bs.map (·.1)
  · by_cases h2 : "var".data ∈ bs.map (·.1)
    · rw [if_pos (hax.mpr h1), if_pos (hvar.mpr h2)]
      simp only [List.mem_cons, List.mem_singleton, List.not_mem_nil, or_false]
      constructor
      · rintro (h | h | h) <;> simp_all <;> tauto
      · rintro (h | h | h) <;> simp_all <;> tauto
    · rw [if_pos (hax.mpr h1), if_neg (fun hc => h2 (hvar.mp hc))]
      simp only [List.mem_cons, List.mem_singleton, List.not_mem_nil, or_false]
      constructor
      · rintro (h | h) <;> simp_all <;> tauto
      · rintro (h | h | h) <;> simp_all <;> tauto
  · by_cases h2 : "var".data ∈ bs.map (·.1)
    · rw [if_neg (fun hc => h1 (hax.mp hc)), if_pos (hvar.mpr h2)]
      simp only [List.mem_cons, List.mem_singleton, List.not_mem_nil, or_false, false_or]
      constructor
      · rintro (h | h) <;> simp_all <;> tauto
      · rintro (h | h | h) <;> simp_all <;> tauto
    · rw [if_neg (fun hc => h1 (hax.mp hc)), if_neg (fun hc => h2 (hvar.mp hc))]
      simp only [List.not_mem_nil, or_false]
      constructor
      · intro h; exact Or.inl h
      · rintro (h | h | h) <;> simp_all <;> tauto

/-- C7: at the keyword-select state (block just opened, empty content) the
pattern accepts exactly the strings `keyword ++ ":"` where the keyword is
one of the five always-legal ones, or `infer`/`goal` when early inference
is configured or an `axiom` block has been verified, or `eq` when a `var`
block has been verified. -/
theorem complete_keyword_select {D : DomainModel} (E : Engine D) (p : List Char)
    (bs : List (List Char × List Char))
    (hob : openBlock E p = some [])
    (hbs : getVerifiedBlocks E p = .ok bs) :
    ∃ pat, complete E p = .ok pat ∧
      ∀ s, Accepts pat s ↔ ∃ k, s = k ++ [':'] ∧
        (k ∈ [("prop".data : List Char), "object".data, "var".data,
              "relation".data, "axiom".data] ∨
         ((k = "infer".data ∨ k = "goal".data) ∧
            (E.inferAtoms = true ∨ "axiom".data ∈ bs.map (·.1))) ∨
         (k = "eq".data ∧ "var".data ∈ bs.map (·.1))) := by
  refine ⟨.cat (litAlt (keywordList E bs)) (lit [':']), ?_, ?_⟩
  · unfold complete
    simp [hob, hbs]
  · intro s
    rw [accepts_litAlt_end]
    constructor
    · rintro ⟨k, hk, rfl⟩
      exact ⟨k, rfl, (keywordList_mem E bs k).mp hk⟩
    · rintro ⟨k, rfl, hk⟩
      exact ⟨k, (keywordList_mem E bs k).mpr hk, rfl⟩

/-- Witness for C7 at a transcript with one verified `var` block. -/
theorem complete_keyword_select_witness :
    openBlock demoEngine "[[var:v]] [[".data = some [] ∧
    getVerifiedBlocks demoEngine "[[var:v]] [[".data = .ok [("var".data, "v".data)] ∧
    (∃ pat, complete demoEngine "[[var:v]] [[".data = .ok pat ∧
      ∀ s, Accepts pat s ↔ ∃ k, s = k ++ [':'] ∧
        (k ∈ [("prop".data : List Char), "object".data, "var".data,
              "relation".data, "axiom".data] ∨
         ((k = "infer".data ∨ k = "goal".data) ∧
            (demoEngine.inferAtoms = true ∨
              "axiom".data ∈ ([("var".data, "v".data)] : List (List Char × List Char)).map (·.1))) ∨
         (k = "eq".data ∧
            "var".data ∈ ([("var".data, "v".data)] : List (List Char × List Char)).map (·.1)))) :=
  ⟨rfl, rfl, complete_keyword_select demoEngine _ _ rfl rfl⟩

/-! ### C1: the `infer` completion pattern -/

/-- Membership in the filtered rendered choices. -/
theorem newInferences_mem {D : DomainModel} (E : Engine D)
    (bs : List (List Char × List Char)) (d : Derivation D) (r : List Char) :
    r ∈ newInferences E bs d ↔
      ∃ c ∈ enumerateChoices E d.univ,
        ("infer".data, E.formatFn (D.cleanDtype c d.univ)) ∉ bs ∧
        r = E.formatFn (D.cleanDtype c d.univ) := by
  unfold newInferences
  rw [List.mem_filter]
  constructor
  · rintro ⟨hr, hcont⟩
    rcases List.mem_map.mp hr with ⟨c, hc, rfl⟩
    refine ⟨c, hc, ?_, rfl⟩
    intro hmem
    rw [(contains_iff_mem _ _).mpr hmem] at hcont
    simp at hcont
  · rintro ⟨c, hc, hnotin, rfl⟩
    refine ⟨List.mem_map.mpr ⟨c, hc, rfl⟩, ?_⟩
    cases hcont : bs.contains ("infer".data, E.formatFn (D.cleanDtype c d.univ)) with
    | false => rfl
    | true => exact absurd ((contains_iff_mem _ _).mp hcont) hnotin

/-- C1: at an open `infer` block with empty content, the pattern accepts
exactly the renderings of the choices enumerated on the replayed universe
that are not already the content of a verified `infer` block, each followed
by the end marker; when no such candidate remains, it accepts exactly the
sentinel followed by the end marker. -/
theorem complete_infer_language {D : DomainModel} (E : Engine D) (p : List Char)
    (bs : List (List Char × List Char)) (d : Derivation D)
    (hob : openBlock E p = some "infer:".data)
    (hbs : getVerifiedBlocks E p = .ok bs)
    (hff : fastForward E bs = .ok d) :
    ∃ pat, complete E p = .ok pat ∧
      ((∃ c ∈ enumerateChoices E d.univ,
          ("infer".data, E.formatFn (D.cleanDtype c d.univ)) ∉ bs) →
        ∀ s, Accepts pat s ↔
          ∃ c ∈ enumerateChoices E d.univ,
            ("infer".data, E.formatFn (D.cleanDtype c d.univ)) ∉ bs ∧
            s = E.formatFn (D.cleanDtype c d.univ) ++ E.endMarker) ∧
      ((¬ ∃ c ∈ enumerateChoices E d.univ,
          ("infer".data, E.formatFn (D.cleanDtype c d.univ)) ∉ bs) →
        ∀ s, Accepts pat s ↔ s = inferError ++ E.endMarker) := by
  have hsp : splitFirst [':'] ("infer:".data) = some ("infer".data, []) := rfl
  have hc : complete E p =
      .ok (.cat (litAlt (if (newInferences E bs d).isEmpty then [inferError]
                         else newInferences E bs d))
                (lit E.endMarker)) := by
    unfold complete
    rw [hob]
    simp +decide only [hsp, hbs, hff, if_true, if_false]
  refine ⟨_, hc, ?_, ?_⟩
  · rintro ⟨c0, hc0, hn0⟩
    intro s
    have hne : (newInferences E bs d).isEmpty = false := by
      have : E.formatFn (D.cleanDtype c0 d.univ) ∈ newInferences E bs d :=
        (newInferences_mem E bs d _).mpr ⟨c0, hc0, hn0, rfl⟩
      cases hq : newInferences E bs d with
      | nil => rw [hq] at this; cases this
      | cons a t => rfl
    rw [hne]
    simp only [Bool.false_eq_true, if_false]
    rw [accepts_litAlt_end]
    constructor
    · rintro ⟨w, hw, rfl⟩
      rcases (newInferences_mem E bs d w).mp hw with ⟨c, hc', hn, rfl⟩
      exact ⟨c, hc', hn, rfl⟩
    · rintro ⟨c, hc', hn, rfl⟩
      exact ⟨_, (newInferences_mem E bs d _).mpr ⟨c, hc', hn, rfl⟩, rfl⟩
  · intro hnone
    intro s
    have hnil : newInferences E bs d = [] := by
      rw [List.eq_nil_iff_forall_not_mem]
      intro r hr
      rcases (newInferences_mem E bs d r).mp hr with ⟨c, hc', hn, rfl⟩
      exact hnone ⟨c, hc', hn⟩
    rw [hnil]
    simp only [List.isEmpty_nil, if_true]
    rw [accepts_litAlt_end]
    constructor
    · rintro ⟨w, hw, rfl⟩
      rcases List.mem_singleton.mp hw with rfl
      rfl
    · rintro rfl
      exact ⟨inferError, List.mem_singleton.mpr rfl, rfl⟩

/-- Witness for C1 at the transcript `[[infer:f1]][[infer:`: `f1` is used
up, so only `f2` (and not the sentinel) remains. -/
theorem complete_infer_language_witness :
    openBlock demoEngine "[[infer:f1]][[infer:".data = some "infer:".data ∧
    getVerifiedBlocks demoEngine "[[infer:f1]][[infer:".data =
      .ok [("infer".data, "f1".data)] ∧
    fastForward demoEngine [("infer".data, "f1".data)] =
      .ok ⟨["object : type. not : [prop -> prop].".data, "!step0".data], none⟩ ∧
    (∃ pat, complete demoEngine "[[infer:f1]][[infer:".data = .ok pat ∧
      ((∃ c ∈ enumerateChoices demoEngine
            (⟨["object : type. not : [prop -> prop].".data, "!step0".data], none⟩ :
              Derivation demoDomain).univ,
          ("infer".data, demoEngine.formatFn (demoDomain.cleanDtype c
            (⟨["object : type. not : [prop -> prop].".data, "!step0".data], none⟩ :
              Derivation demoDomain).univ)) ∉ [("infer".data, "f1".data)]) →
        ∀ s, Accepts pat s ↔
          ∃ c ∈ enumerateChoices demoEngine
              (⟨["object : type. not : [prop -> prop].".data, "!step0".data], none⟩ :
                Derivation demoDomain).univ,
            ("infer".data, demoEngine.formatFn (demoDomain.cleanDtype c
              (⟨["object : type. not : [prop -> prop].".data, "!step0".data], none⟩ :
                Derivation demoDomain).univ)) ∉ [("infer".data, "f1".data)] ∧
            s = demoEngine.formatFn (demoDomain.cleanDtype c
              (⟨["object : type. not : [prop -> prop].".data, "!step0".data], none⟩ :
                Derivation demoDomain).univ) ++ demoEngine.endMarker) ∧
      ((¬ ∃ c ∈ enumerateChoices demoEngine
            (⟨["object : type. not : [prop -> prop].".data, "!step0".data], none⟩ :
              Derivation demoDomain).univ,
          ("infer".data, demoEngine.formatFn (demoDomain.cleanDtype c
            (⟨["object : type. not : [prop -> prop].".data, "!step0".data], none⟩ :
              Derivation demoDomain).univ)) ∉ [("infer".data, "f1".data)]) →
        ∀ s, Accepts pat s ↔ s = inferError ++ demoEngine.endMarker)) :=
  ⟨rfl, rfl, rfl,
   complete_infer_language demoEngine _ _ _ rfl rfl rfl⟩

/-! ### C4: the enumerated axiom and goal grammars -/

/-- Acceptance through an `Except`-wrapped pattern (failing patterns accept
nothing), for stating concrete evaluations of `complete`. -/
def patAccepts (e : Except Err RE) (s : List Char) : Bool :=
  match e with
  | .ok r => accept r s
  | .error _ => false

/-- C4 (counterexample): with predicates `p`, `q` and object `a`, the
enumerated axiom pattern accepts `(p a) -> (q 'x)]]`, whose final
proposition after the last arrow is the variable-instantiated premise
`(q 'x)` and not a conclusion — the claim says such strings are rejected. -/
theorem axiom_pattern_accepts_final_variable :
    patAccepts (complete demoEngineEnum "[[prop:p]][[prop:q]][[object:a]][[axiom:".data)
        ("(p a) -> (q ".data ++ [qc, 'x'] ++ ")]]".data) = true ∧
    ("(q ".data ++ [qc, 'x'] ++ ")".data) ∉
      conclusionsOf [("prop".data, "p".data), ("prop".data, "q".data),
                     ("object".data, "a".data)] ∧
    ("(q ".data ++ [qc, 'x'] ++ ")".data) ∈
      premisesOf [("prop".data, "p".data), ("prop".data, "q".data),
                  ("object".data, "a".data)] ∧
    getVerifiedBlocks demoEngineEnum "[[prop:p]][[prop:q]][[object:a]][[axiom:".data =
      .ok [("prop".data, "p".data), ("prop".data, "q".data), ("object".data, "a".data)] :=
  ⟨rfl, by decide, by decide, rfl⟩

/-- Strings of `star (premise ++ " -> ")` are exactly finite concatenations
of premises each followed by the arrow. -/
theorem accepts_star_litAlt_arrow (P : List (List Char)) (ar s : List Char) :
    Accepts (.star (.cat (litAlt P) (lit ar))) s ↔
      ∃ ps : List (List Char), (∀ x ∈ ps, x ∈ P) ∧
        s = (ps.map (· ++ ar)).flatten := by
  rw [accepts_star_iff]
  constructor
  · rintro ⟨parts, rfl, hparts⟩
    suffices h : ∀ parts : List (List Char),
        (∀ u ∈ parts, Accepts (.cat (litAlt P) (lit ar)) u) →
        ∃ ps : List (List Char), (∀ x ∈ ps, x ∈ P) ∧ parts = ps.map (· ++ ar) by
      rcases h parts hparts with ⟨ps, hps, rfl⟩
      exact ⟨ps, hps, rfl⟩
    intro parts
    induction parts with
    | nil => intro _; exact ⟨[], by simp, rfl⟩
    | cons u t ih =>
        intro h
        have hu := h u (by simp)
        rw [accepts_cat_lit_right] at hu
        rcases hu with ⟨x, rfl, hx⟩
        rcases ih (fun v hv => h v (by simp [hv])) with ⟨ps, hps, rfl⟩
        refine ⟨x :: ps, ?_, rfl⟩
        intro y hy
        rcases List.mem_cons.mp hy with rfl | hy'
        · exact (accepts_litAlt P y).mp hx
        · exact hps y hy'
  · rintro ⟨ps, hps, rfl⟩
    refine ⟨ps.map (· ++ ar), rfl, ?_⟩
    intro u hu
    rcases List.mem_map.mp hu with ⟨x, hx, rfl⟩
    rw [accepts_cat_lit_right]
    exact ⟨x, rfl, (accepts_litAlt P x).mpr (hps x hx)⟩

/-- The conclusion alternative (`$.` when empty) accepts exactly the
conclusions. -/
theorem accepts_conclusion_alt (L : List (List Char)) (s : List Char) :
    Accepts (if L.isEmpty then RE.fail else litAlt L) s ↔ s ∈ L := by
  cases L with
  | nil => simp [accepts_fail_iff]
  | cons a t => simp only [List.isEmpty_cons, Bool.false_eq_true, if_false, accepts_litAlt]

/-- C4 (amended): in enumerated mode, with a nonempty theory, the goal
pattern accepts exactly one conclusion followed by the end marker, and the
axiom pattern accepts exactly a bare conclusion, or one or more premises
each followed by `" -> "` and terminated by a final PREMISE (which may be
variable-instantiated), all followed by the end marker. -/
theorem makePropositionRegex_language {D : DomainModel} (E : Engine D)
    (bs : List (List Char × List Char))
    (hprem : premisesOf bs ≠ []) :
    (∃ pat, makePropositionRegex E bs true = .ok pat ∧
      ∀ s, Accepts pat s ↔ ∃ q ∈ conclusionsOf bs, s = q ++ E.endMarker) ∧
    (∃ pat, makePropositionRegex E bs false = .ok pat ∧
      ∀ s, Accepts pat s ↔
        ((∃ q ∈ conclusionsOf bs, s = q ++ E.endMarker) ∨
         (∃ ps q, ps ≠ [] ∧ (∀ x ∈ ps, x ∈ premisesOf bs) ∧ q ∈ premisesOf bs ∧
            s = (ps.map (· ++ " -> ".data)).flatten ++ q ++ E.endMarker))) := by
  have hpe : (premisesOf bs).isEmpty = false := by
    cases hq : premisesOf bs with
    | nil => exact absurd hq hprem
    | cons a t => rfl
  constructor
  · refine ⟨.cat (if (conclusionsOf bs).isEmpty then RE.fail else litAlt (conclusionsOf bs))
        (lit E.endMarker), by unfold makePropositionRegex; simp [hpe], ?_⟩
    intro s
    rw [accepts_cat_lit_right]
    constructor
    · rintro ⟨u, rfl, hu⟩
      exact ⟨u, (accepts_conclusion_alt _ u).mp hu, rfl⟩
    · rintro ⟨q, hq, rfl⟩
      exact ⟨q, rfl, (accepts_conclusion_alt _ q).mpr hq⟩
  · refine ⟨.cat (.alt (if (conclusionsOf bs).isEmpty then RE.fail else litAlt (conclusionsOf bs))
        (.cat (rePlus (.cat (litAlt (premisesOf bs)) (lit " -> ".data)))
              (litAlt (premisesOf bs))))
        (lit E.endMarker), by unfold makePropositionRegex; simp [hpe], ?_⟩
    intro s
    rw [accepts_cat_lit_right]
    constructor
    · rintro ⟨u, rfl, hu⟩
      rw [accepts_alt_iff] at hu
      rcases hu with hu | hu
      · exact Or.inl ⟨u, (accepts_conclusion_alt _ u).mp hu, rfl⟩
      · right
        rw [accepts_cat_iff] at hu
        rcases hu with ⟨v, w, rfl, hv, hw⟩
        unfold rePlus at hv
        rw [accepts_cat_iff] at hv
        rcases hv with ⟨v1, v2, rfl, hv1, hv2⟩
        rw [accepts_cat_lit_right] at hv1
        rcases hv1 with ⟨x0, rfl, hx0⟩
        rcases (accepts_star_litAlt_arrow _ _ v2).mp hv2 with ⟨ps, hps, rfl⟩
        refine ⟨x0 :: ps, w, by simp, ?_, (accepts_litAlt _ w).mp hw, by simp⟩
        intro y hy
        rcases List.mem_cons.mp hy with rfl | hy'
        · exact (accepts_litAlt _ y).mp hx0
        · exact hps y hy'
    · rintro (⟨q, hq, rfl⟩ | ⟨ps, q, hne, hps, hq, rfl⟩)
      · exact ⟨q, rfl,
          .altL ((accepts_conclusion_alt _ q).mpr hq)⟩
      · refine ⟨(ps.map (· ++ " -> ".data)).flatten ++ q, by simp, ?_⟩
        refine .altR ?_
        cases ps with
        | nil => exact absurd rfl hne
        | cons x0 t =>
            have hx0 : Accepts (.cat (litAlt (premisesOf bs)) (lit " -> ".data))
                (x0 ++ " -> ".data) := by
              rw [accepts_cat_lit_right]
              exact ⟨x0, rfl, (accepts_litAlt _ x0).mpr (hps x0 (by simp))⟩
            have ht : Accepts (.star (.cat (litAlt (premisesOf bs)) (lit " -> ".data)))
                ((t.map (· ++ " -> ".data)).flatten) := by
              rw [accepts_star_litAlt_arrow]
              exact ⟨t, fun y hy => hps y (by simp [hy]), rfl⟩
            have hq' : Accepts (litAlt (premisesOf bs)) q := (accepts_litAlt _ q).mpr hq
            have := Accepts.cat (Accepts.cat hx0 ht) hq'
            unfold rePlus
            simpa [List.append_assoc] using this

/-- Witness for C4's amended statement at the one-predicate theory. -/
theorem makePropositionRegex_language_witness :
    premisesOf [(("prop".data : List Char), ("p".data : List Char))] ≠ [] ∧
    ((∃ pat, makePropositionRegex demoEngineEnum [("prop".data, "p".data)] true = .ok pat ∧
      ∀ s, Accepts pat s ↔
        ∃ q ∈ conclusionsOf [(("prop".data : List Char), ("p".data : List Char))],
          s = q ++ demoEngineEnum.endMarker) ∧
     (∃ pat, makePropositionRegex demoEngineEnum [("prop".data, "p".data)] false = .ok pat ∧
      ∀ s, Accepts pat s ↔
        ((∃ q ∈ conclusionsOf [(("prop".data : List Char), ("p".data : List Char))],
            s = q ++ demoEngineEnum.endMarker) ∨
         (∃ ps q, ps ≠ [] ∧
            (∀ x ∈ ps, x ∈ premisesOf [(("prop".data : List Char), ("p".data : List Char))]) ∧
            q ∈ premisesOf [(("prop".data : List Char), ("p".data : List Char))] ∧
            s = (ps.map (· ++ " -> ".data)).flatten ++ q ++ demoEngineEnum.endMarker)))) :=
  ⟨by decide, makePropositionRegex_language demoEngineEnum _ (by decide)⟩

/-! ### C6: the free-text pattern -/

/-- C6 (counterexample): with the default markers and no open block, the
string `x[` contains no start marker, yet `x[` followed by the start marker
is rejected by the produced pattern — the starred alternation cannot end on
a dangling `[`. -/
theorem complete_freetext_counterexample :
    openBlock demoEngine [] = none ∧
    patAccepts (complete demoEngine []) ("x[".data ++ "[[".data) = false ∧
    containsSub "[[".data "x[".data = false := ⟨rfl, rfl, rfl⟩

/-- The single-step alternation of `regex_not_containing("[[")`. -/
def innerLL : RE :=
  .alt (.cat (lit []) (.pred (fun c => !(c == '['))))
    (.alt (.cat (lit ['[']) (.pred (fun c => !(c == '[')))) .fail)

theorem reNotContaining_LL_eq : reNotContaining "[[".data = .star innerLL := rfl

theorem accepts_innerLL (u : List Char) :
    Accepts innerLL u ↔
      (∃ c, u = [c] ∧ c ≠ '[') ∨ (∃ c, u = ['[', c] ∧ c ≠ '[') := by
  unfold innerLL
  rw [accepts_alt_iff, accepts_alt_iff, accepts_cat_iff, accepts_cat_iff,
    accepts_fail_iff]
  constructor
  · rintro (⟨a, b, rfl, ha, hb⟩ | ⟨a, b, rfl, ha, hb⟩ | h)
    · rw [accepts_lit] at ha
      subst ha
      rw [accepts_pred_iff] at hb
      rcases hb with ⟨c, rfl, hc⟩
      exact Or.inl ⟨c, rfl, by simpa using hc⟩
    · rw [accepts_lit] at ha
      subst ha
      rw [accepts_pred_iff] at hb
      rcases hb with ⟨c, rfl, hc⟩
      exact Or.inr ⟨c, rfl, by simpa using hc⟩
    · cases h
  · rintro (⟨c, rfl, hc⟩ | ⟨c, rfl, hc⟩)
    · exact Or.inl ⟨[], [c], rfl, (accepts_lit [] []).mpr rfl,
        (accepts_pred_iff _ _).mpr ⟨c, rfl, by simpa using hc⟩⟩
    · exact Or.inr (Or.inl ⟨['['], [c], rfl, (accepts_lit _ _).mpr rfl,
        (accepts_pred_iff _ _).mpr ⟨c, rfl, by simpa using hc⟩⟩)

/-- Executable characterization of the `regex_not_containing("[[")`
language: no two consecutive `[`, and no trailing `[`. -/
def freeOk : List Char → Bool
  | [] => true
  | [c] => !(c == '[')
  | c :: d :: t => !(c == '[' && d == '[') && freeOk (d :: t)

theorem freeOk_cons (c : Char) (w : List Char) (hc : c ≠ '[')
    (hw : freeOk w = true) : freeOk (c :: w) = true := by
  cases w with
  | nil => simpa [freeOk] using hc
  | cons d t => simp_all [freeOk]

theorem freeOk_tail (c : Char) (w : List Char) (h : freeOk (c :: w) = true) :
    freeOk w = true := by
  cases w with
  | nil => rfl
  | cons d t =>
      rw [freeOk, Bool.and_eq_true] at h
      exact h.2

theorem accepts_notContaining_LL (w : List Char) :
    Accepts (reNotContaining "[[".data) w ↔ freeOk w = true := by
  rw [reNotContaining_LL_eq]
  constructor
  · intro h
    rcases (accepts_star_iff innerLL w).mp h with ⟨parts, rfl, hparts⟩
    clear h
    induction parts with
    | nil => rfl
    | cons u t ih =>
        have hu := hparts u (by simp)
        have ht := ih (fun v hv => hparts v (by simp [hv]))
        rw [accepts_innerLL] at hu
        rcases hu with ⟨c, rfl, hc⟩ | ⟨c, rfl, hc⟩
        · simpa using freeOk_cons c _ hc ht
        · rw [List.flatten_cons]
          have h1 : freeOk (c :: t.flatten) = true := freeOk_cons c _ hc ht
          cases hq : (c :: t.flatten) with
      | nil => cases hq
      | cons d r =>
          injection hq with h2 h3
          subst h2; subst h3
          simpa [freeOk, hc] using h1
  · intro h
    rw [accepts_star_iff]
    suffices hs : ∀ n (w : List Char), w.length ≤ n → freeOk w = true →
        ∃ ps : List (List Char), w = ps.flatten ∧ ∀ u ∈ ps, Accepts innerLL u by
      exact hs w.length w le_rfl h
    intro n
    induction n with
    | zero =>
        intro w hw _
        have : w = [] := List.length_eq_zero.mp (Nat.le_zero.mp hw)
        exact ⟨[], by simp [this], by simp⟩
    | succ n ih =>
        intro w hw hfo
        cases w with
        | nil => exact ⟨[], by simp, by simp⟩
        | cons c w' =>
            by_cases hc : c = '['
            · subst hc
              cases w' with
              | nil => simp [freeOk] at hfo
              | cons d t =>
                  rw [freeOk, Bool.and_eq_true] at hfo
                  have hd : d ≠ '[' := by
                    intro hd
                    subst hd
                    simp at hfo
                  have hft : freeOk t = true := freeOk_tail d t hfo.2
                  have hlt : t.length ≤ n := by
                    have := hw
                    simp only [List.length_cons] at this
                    omega
                  rcases ih t hlt hft with ⟨ps, rfl, hps⟩
                  refine ⟨['[', d] :: ps, rfl, ?_⟩
                  intro u hu
                  rcases List.mem_cons.mp hu with rfl | hu'
                  · exact (accepts_innerLL _).mpr (Or.inr ⟨d, rfl, hd⟩)
                  · exact hps u hu'
            · have hft : freeOk w' = true := freeOk_tail c w' hfo
              have hlt : w'.length ≤ n := by
                have := hw
                simp only [List.length_cons] at this
                omega
              rcases ih w' hlt hft with ⟨ps, rfl, hps⟩
              refine ⟨[c] :: ps, rfl, ?_⟩
              intro u hu
              rcases List.mem_cons.mp hu with rfl | hu'
              · exact (accepts_innerLL _).mpr (Or.inl ⟨c, rfl, hc⟩)
              · exact hps u hu'

theorem freeOk_iff (w : List Char) :
    freeOk w = true ↔
      (¬ ∃ a b, w = a ++ "[[".data ++ b) ∧ w.getLast? ≠ some '[' := by
  constructor
  · intro h
    constructor
    · rintro ⟨a, b, rfl⟩
      suffices hfa : ∀ a : List Char, freeOk (a ++ "[[".data ++ b) = false by
        rw [hfa a] at h
        cases h
      intro a
      induction a with
      | nil => simp [freeOk]
      | cons c a' iha =>
          have hne : a' ++ "[[".data ++ b ≠ [] := by simp
          cases hq : a' ++ "[[".data ++ b with
          | nil => exact absurd hq hne
          | cons d r =>
              have : (c :: (a' ++ "[[".data ++ b)) = c :: d :: r := by rw [hq]
              rw [show ((c :: a' ++ "[[".data ++ b : List Char) = c :: (a' ++ "[[".data ++ b)) by simp,
                 this, freeOk]
              rw [hq] at iha
              simp [iha]
    · intro hlast
      induction w with
      | nil => simp at hlast
      | cons c w' ihw =>
          cases w' with
          | nil =>
              simp only [List.getLast?_singleton, ne_eq, Option.some.injEq] at hlast
              simp [freeOk] at h
              simp_all
          | cons d t =>
              rw [List.getLast?_cons_cons] at hlast
              exact ihw (freeOk_tail c _ h) hlast
  · rintro ⟨hsub, hlast⟩
    induction w with
    | nil => rfl
    | cons c w' ihw =>
        cases w' with
        | nil =>
            have : c ≠ '[' := by
              intro hc
              subst hc
              simp at hlast
            simpa [freeOk] using this
        | cons d t =>
            have hcd : ¬(c = '[' ∧ d = '[') := by
              rintro ⟨rfl, rfl⟩
              exact hsub ⟨[], t, rfl⟩
            have htail : freeOk (d :: t) = true := by
              apply ihw
              · rintro ⟨a, b, hab⟩
                exact hsub ⟨c :: a, b, by simp [hab]⟩
              · rwa [List.getLast?_cons_cons] at hlast
            rw [freeOk, Bool.and_eq_true]
            refine ⟨?_, htail⟩
            simp only [Bool.not_eq_true', Bool.and_eq_false_iff]
            rcases Decidable.em (c = '[') with rfl | hc
            · right
              have : d ≠ '[' := fun hd => hcd ⟨rfl, hd⟩
              simpa using this
            · left
              simpa using hc

/-- C6 (amended): with the default start marker and no open block, the
pattern accepts exactly the strings `w ++ "[["` where `w` contains no
occurrence of `[[` AND does not end in a dangling `[` (the claim omitted
the second condition). -/
theorem complete_freetext_amended {D : DomainModel} (E : Engine D) (p : List Char)
    (hsm : E.startMarker = "[[".data)
    (hob : openBlock E p = none) :
    ∃ pat, complete E p = .ok pat ∧
      ∀ s, Accepts pat s ↔
        ∃ w, s = w ++ "[[".data ∧ (¬ ∃ a b, w = a ++ "[[".data ++ b) ∧
          w.getLast? ≠ some '[' := by
  refine ⟨.cat (reNotContaining "[[".data) (lit "[[".data), ?_, ?_⟩
  · unfold complete
    rw [hob, hsm]
  · intro s
    rw [accepts_cat_lit_right]
    constructor
    · rintro ⟨w, rfl, hw⟩
      exact ⟨w, rfl, (freeOk_iff w).mp ((accepts_notContaining_LL w).mp hw)⟩
    · rintro ⟨w, rfl, hw⟩
      exact ⟨w, rfl, (accepts_notContaining_LL w).mpr ((freeOk_iff w).mpr hw)⟩

/-- Witness for C6's amended statement at a marker-free transcript. -/
theorem complete_freetext_amended_witness :
    demoEngine.startMarker = "[[".data ∧
    openBlock demoEngine "hello".data = none ∧
    (∃ pat, complete demoEngine "hello".data = .ok pat ∧
      ∀ s, Accepts pat s ↔
        ∃ w, s = w ++ "[[".data ∧ (¬ ∃ a b, w = a ++ "[[".data ++ b) ∧
          w.getLast? ≠ some '[') :=
  ⟨rfl, rfl, complete_freetext_amended demoEngine _ rfl rfl⟩

/-! ### C5: extraction, de-duplication, and duplicate appends -/

/-- C5 (counterexample): a transcript ending in an open block.  Appending a
block identical to the already verified `(a, b)` closes the open block
instead, and the extracted sequence changes (it gains the pair
`("q[[a", "b")`). -/
theorem getVerifiedBlocks_duplicate_append_counterexample :
    getVerifiedBlocks demoEngine "[[a:b]][[q".data = .ok [("a".data, "b".data)] ∧
    "[[a:b]][[q[[a:b]]".data =
      "[[a:b]][[q".data ++ ("[[".data ++ "a".data ++ [':'] ++ "b".data ++ "]]".data) ∧
    getVerifiedBlocks demoEngine "[[a:b]][[q[[a:b]]".data =
      .ok [("a".data, "b".data), ("q[[a".data, "b".data)] :=
  ⟨rfl, rfl, rfl⟩

theorem splitFirst_none_of_not_mem (c : Char) (sub s : List Char) (h : c ∉ s) :
    splitFirst (c :: sub) s = none := by
  induction s with
  | nil => rfl
  | cons d t ih =>
      have hnp : ¬ (c :: sub).isPrefixOf (d :: t) = true := by
        intro hp
        rw [List.isPrefixOf_cons₂] at hp
        rcases Bool.and_eq_true _ _ |>.mp hp with ⟨h1, _⟩
        exact h (by simp [beq_iff_eq.mp h1])
      unfold splitFirst
      rw [if_neg hnp, ih (fun hm => h (List.mem_cons_of_mem d hm))]
      rfl

theorem splitFirst_first_occurrence (c : Char) (sub a b : List Char) (h : c ∉ a) :
    splitFirst (c :: sub) (a ++ (c :: sub) ++ b) = some (a, b) := by
  induction a with
  | nil =>
      have hpre : (c :: sub).isPrefixOf ((c :: sub) ++ b) = true :=
        List.isPrefixOf_iff_prefix.mpr (List.prefix_append _ _)
      simp only [List.nil_append]
      rw [show (c :: sub) ++ b = c :: (sub ++ b) from rfl]
      unfold splitFirst
      rw [show c :: (sub ++ b) = (c :: sub) ++ b from rfl, if_pos hpre]
      rw [List.drop_left]
  | cons d a' ih =>
      have hdc : c ≠ d := fun hcd => h (by simp [hcd])
      have hnp : ¬ (c :: sub).isPrefixOf (d :: (a' ++ (c :: sub) ++ b)) = true := by
        intro hp
        rw [List.isPrefixOf_cons₂] at hp
        rcases Bool.and_eq_true _ _ |>.mp hp with ⟨h1, _⟩
        exact hdc (beq_iff_eq.mp h1)
      rw [show (d :: a') ++ (c :: sub) ++ b = d :: (a' ++ (c :: sub) ++ b) by simp]
      unfold splitFirst
      rw [if_neg hnp, ih (fun hm => h (List.mem_cons_of_mem d hm))]
      rfl

/-- One structured segment of a transcript: marker-free text, or one closed
block. -/
inductive Seg where
  | text (t : List Char)
  | blk (k c : List Char)

/-- Rendering of a segment with the default markers. -/
def renderSeg : Seg → List Char
  | .text t => t
  | .blk k c => "[[".data ++ (k ++ [':'] ++ c) ++ "]]".data

/-- Rendering of a structured transcript. -/
def renderT (segs : List Seg) : List Char := (segs.map renderSeg).flatten

/-- Side conditions under which a segment cannot interfere with the
scanner: text carries no `[`, keywords are `[`/`]`/`:`-free, contents are
`[`/`]`-free. -/
def segOk : Seg → Prop
  | .text t => '[' ∉ t
  | .blk k c => '[' ∉ k ∧ ']' ∉ k ∧ ':' ∉ k ∧ '[' ∉ c ∧ ']' ∉ c

/-- The closed `(keyword, content)` pairs of a structured transcript, in
order, duplicates included. -/
def closedPairs (segs : List Seg) : List (List Char × List Char) :=
  segs.filterMap (fun sg => match sg with | .text _ => none | .blk k c => some (k, c))

theorem scanBlocks_renderT (segs : List Seg) :
    (∀ sg ∈ segs, segOk sg) →
    ∀ (f : Nat) (p : List Char), '[' ∉ p →
      p.length + (renderT segs).length < f →
      scanBlocks "[[".data "]]".data f (p ++ renderT segs) = .ok (closedPairs segs) := by
  induction segs with
  | nil =>
      intro _ f p hp hf
      cases f with
      | zero => omega
      | succ f' =>
          rw [show renderT [] = [] from rfl, List.append_nil]
          unfold scanBlocks
          rw [show ("[[".data : List Char) = '[' :: "[".data from rfl,
            splitFirst_none_of_not_mem '[' "[".data p hp]
          rfl
  | cons sg rest ih =>
      intro hok f p hp hf
      cases sg with
      | text t =>
          have hokt : '[' ∉ t := hok (.text t) (by simp)
          have hrw : renderT (.text t :: rest) = t ++ renderT rest := by
            simp [renderT, renderSeg]
          rw [hrw, ← List.append_assoc]
          have hcp : closedPairs (.text t :: rest) = closedPairs rest := by
            simp [closedPairs]
          rw [hcp]
          apply ih (fun s hs => hok s (by simp [hs])) f (p ++ t)
          · intro hm
            rcases List.mem_append.mp hm with hm | hm
            · exact hp hm
            · exact hokt hm
          · rw [hrw] at hf
            simp only [List.length_append] at hf ⊢
            omega
      | blk k c =>
          obtain ⟨hk1, hk2, hk3, hc1, hc2⟩ := hok (.blk k c) (by simp)
          cases f with
          | zero => omega
          | succ f' =>
              have hrw : renderT (.blk k c :: rest) =
                  ("[[".data ++ (k ++ [':'] ++ c) ++ "]]".data) ++ renderT rest := by
                simp [renderT, renderSeg]
              rw [hrw]
              unfold scanBlocks
              have h1 : splitFirst "[[".data
                  (p ++ (("[[".data ++ (k ++ [':'] ++ c) ++ "]]".data) ++ renderT rest)) =
                  some (p, (k ++ [':'] ++ c) ++ "]]".data ++ renderT rest) := by
                have hoc := splitFirst_first_occurrence '[' "[".data p
                  ((k ++ [':'] ++ c) ++ "]]".data ++ renderT rest) hp
                rw [show ('[' :: "[".data : List Char) = "[[".data from rfl] at hoc
                have he : p ++ (("[[".data ++ (k ++ [':'] ++ c) ++ "]]".data) ++ renderT rest) =
                    p ++ "[[".data ++ ((k ++ [':'] ++ c) ++ "]]".data ++ renderT rest) := by
                  simp [List.append_assoc]
                rw [he]
                exact hoc
              have h2 : splitFirst "]]".data
                  ("[[".data ++ ((k ++ [':'] ++ c) ++ "]]".data ++ renderT rest)) =
                  some ("[[".data ++ (k ++ [':'] ++ c), renderT rest) := by
                have hnrb : ']' ∉ "[[".data ++ (k ++ [':'] ++ c) := by
                  intro hm
                  rcases List.mem_append.mp hm with hm | hm
                  · simp at hm
                  · rcases List.mem_append.mp hm with hm | hm
                    · rcases List.mem_append.mp hm with hm | hm
                      · exact hk2 hm
                      · simp at hm
                    · exact hc2 hm
                have hoc := splitFirst_first_occurrence ']' "]".data
                  ("[[".data ++ (k ++ [':'] ++ c)) (renderT rest) hnrb
                rw [show (']' :: "]".data : List Char) = "]]".data from rfl] at hoc
                have he : "[[".data ++ ((k ++ [':'] ++ c) ++ "]]".data ++ renderT rest) =
                    ("[[".data ++ (k ++ [':'] ++ c)) ++ "]]".data ++ renderT rest := by
                  simp [List.append_assoc]
                rw [he]
                exact hoc
              have h3 : ((k ++ [':'] ++ c) ++ "]]".data ++ renderT rest).take
                  (("[[".data ++ (k ++ [':'] ++ c)).length - ("[[".data : List Char).length) =
                  k ++ [':'] ++ c := by
                have hl : ("[[".data ++ (k ++ [':'] ++ c)).length -
                    ("[[".data : List Char).length = (k ++ [':'] ++ c).length := by
                  simp
                rw [hl, List.append_assoc (k ++ [':'] ++ c), List.take_left]
              have h4 : splitFirst [':'] (k ++ [':'] ++ c) = some (k, c) :=
                splitFirst_first_occurrence ':' [] k c hk3
              have h5 : ("[[".data ++ ((k ++ [':'] ++ c) ++ "]]".data ++ renderT rest)).drop
                  (("[[".data ++ (k ++ [':'] ++ c)).length + 1) =
                  ']' :: renderT rest := by
                have hsh : "[[".data ++ ((k ++ [':'] ++ c) ++ "]]".data ++ renderT rest) =
                    ("[[".data ++ (k ++ [':'] ++ c)) ++ (']' :: ']' :: renderT rest) := by
                  simp [List.append_assoc]
                rw [hsh, ← List.drop_drop, List.drop_left, List.drop_one]
                rfl
              have h6 : scanBlocks "[[".data "]]".data f' (']' :: renderT rest) =
                  .ok (closedPairs rest) := by
                have hlen : ([']'] : List Char).length + (renderT rest).length < f' := by
                  rw [hrw] at hf
                  simp only [List.length_append, List.length_cons,
                    List.length_singleton] at hf ⊢
                  omega
                have hrec := ih (fun s hs => hok s (by simp [hs])) f' ([']'])
                  (by decide) hlen
                simpa using hrec
              simp only [h1, h2, h3, h4, h5, h6]
              simp [closedPairs]

theorem dedupSeen_nil {α : Type _} [DecidableEq α] (s : List α) :
    dedupSeen s ([] : List α) = [] := rfl

theorem dedupSeen_cons {α : Type _} [DecidableEq α] (s : List α) (b : α) (t : List α) :
    dedupSeen s (b :: t) =
      if b ∈ s then dedupSeen s t else b :: dedupSeen (b :: s) t := rfl

theorem dedupSeen_congr {α : Type _} [DecidableEq α] (l : List α) :
    ∀ s₁ s₂ : List α, (∀ x, x ∈ s₁ ↔ x ∈ s₂) → dedupSeen s₁ l = dedupSeen s₂ l := by
  induction l with
  | nil => intro _ _ _; rfl
  | cons b t ih =>
      intro s₁ s₂ h
      rw [dedupSeen_cons, dedupSeen_cons]
      by_cases hb : b ∈ s₁
      · rw [if_pos hb, if_pos ((h b).mp hb)]
        exact ih s₁ s₂ h
      · rw [if_neg hb, if_neg (fun hc => hb ((h b).mpr hc))]
        rw [ih (b :: s₁) (b :: s₂) (by intro x; simp [h x])]

theorem dedupSeen_shift {α : Type _} [DecidableEq α] (a : α) (l : List α) :
    ∀ s : List α, dedupSeen (a :: s) l = dedupSeen s (l.filter (fun b => b ≠ a)) := by
  induction l with
  | nil => intro s; rfl
  | cons b t ih =>
      intro s
      by_cases hba : b = a
      · subst hba
        rw [show (b :: t).filter (fun x => x ≠ b) = t.filter (fun x => x ≠ b) by simp]
        rw [dedupSeen_cons, if_pos (by simp)]
        exact ih s
      · rw [show (b :: t).filter (fun x => x ≠ a) = b :: t.filter (fun x => x ≠ a) by
          simp [hba]]
        rw [dedupSeen_cons, dedupSeen_cons]
        by_cases hbs : b ∈ s
        · rw [if_pos (by simp [hbs]), if_pos hbs]
          exact ih s
        · rw [if_neg (by simp [hba, hbs]), if_neg hbs]
          rw [dedupSeen_congr t (b :: a :: s) (a :: b :: s) (by intro x; constructor <;>
            (intro hx; simp at hx ⊢; tauto))]
          rw [ih (b :: s)]

theorem dedupKeepFirst_cons {α : Type _} [DecidableEq α] (a : α) (l : List α) :
    dedupKeepFirst (a :: l) = a :: dedupKeepFirst (l.filter (fun b => b ≠ a)) := by
  unfold dedupKeepFirst
  rw [dedupSeen_cons, if_neg (by simp)]
  rw [show (a :: ([] : List α)) = [a] from rfl]
  rw [show ([a] : List α) = a :: [] from rfl, dedupSeen_shift a l []]

theorem dedupSeen_mem {α : Type _} [DecidableEq α] (l : List α) :
    ∀ (s : List α) (x : α), x ∈ dedupSeen s l ↔ x ∈ l ∧ x ∉ s := by
  induction l with
  | nil => intro s x; simp [dedupSeen_nil]
  | cons b t ih =>
      intro s x
      rw [dedupSeen_cons]
      by_cases hb : b ∈ s
      · rw [if_pos hb, ih]
        constructor
        · rintro ⟨hx, hs⟩; exact ⟨by simp [hx], hs⟩
        · rintro ⟨hx, hs⟩
          rcases List.mem_cons.mp hx with rfl | hx'
          · exact absurd hb hs
          · exact ⟨hx', hs⟩
      · rw [if_neg hb]
        simp only [List.mem_cons, ih]
        constructor
        · rintro (rfl | ⟨hx, hs⟩)
          · exact ⟨Or.inl rfl, hb⟩
          · exact ⟨Or.inr hx, fun hc => hs (by simp [hc])⟩
        · rintro ⟨rfl | hx, hs⟩
          · exact Or.inl rfl
          · by_cases hxb : x = b
            · exact Or.inl hxb
            · exact Or.inr ⟨hx, by simp [hxb, hs]⟩

theorem dedupSeen_nodup {α : Type _} [DecidableEq α] (l : List α) :
    ∀ s : List α, (dedupSeen s l).Nodup := by
  induction l with
  | nil => intro s; exact List.nodup_nil
  | cons b t ih =>
      intro s
      rw [dedupSeen_cons]
      by_cases hb : b ∈ s
      · rw [if_pos hb]; exact ih s
      · rw [if_neg hb]
        rw [List.nodup_cons]
        refine ⟨?_, ih (b :: s)⟩
        intro hc
        exact ((dedupSeen_mem t (b :: s) b).mp hc).2 (by simp)

theorem dedupSeen_sublist {α : Type _} [DecidableEq α] (l : List α) :
    ∀ s : List α, List.Sublist (dedupSeen s l) l := by
  induction l with
  | nil => intro s; exact List.Sublist.refl []
  | cons b t ih =>
      intro s
      rw [dedupSeen_cons]
      by_cases hb : b ∈ s
      · rw [if_pos hb]; exact (ih s).cons b
      · rw [if_neg hb]; exact (ih (b :: s)).cons₂ b

theorem dedupSeen_append_mem {α : Type _} [DecidableEq α] (a : α) (l : List α) :
    ∀ s : List α, (a ∈ l ∨ a ∈ s) → dedupSeen s (l ++ [a]) = dedupSeen s l := by
  induction l with
  | nil =>
      intro s h
      rcases h with h | h
      · cases h
      · rw [List.nil_append, dedupSeen_cons, if_pos h]
  | cons b t ih =>
      intro s h
      rw [List.cons_append, dedupSeen_cons, dedupSeen_cons]
      by_cases hb : b ∈ s
      · rw [if_pos hb, if_pos hb]
        apply ih
        rcases h with h | h
        · rcases List.mem_cons.mp h with rfl | h'
          · exact Or.inr hb
          · exact Or.inl h'
        · exact Or.inr h
      · rw [if_neg hb, if_neg hb]
        rw [ih (b :: s) ?ha]
        case ha =>
          rcases h with h | h
          · rcases List.mem_cons.mp h with rfl | h'
            · exact Or.inr (by simp)
            · exact Or.inl h'
          · exact Or.inr (by simp [h])

/-- Rendering distributes over append. -/
theorem renderT_append (xs ys : List Seg) :
    renderT (xs ++ ys) = renderT xs ++ renderT ys := by
  simp [renderT]

/-- Closed pairs distribute over append. -/
theorem closedPairs_append (xs ys : List Seg) :
    closedPairs (xs ++ ys) = closedPairs xs ++ closedPairs ys := by
  simp [closedPairs]

/-- C5 (amended): extraction de-duplicates the scanned closed pairs keeping
first occurrences — the result is a duplicate-free subsequence of the raw
closed-pair scan with the same members, and each element survives at its
first position (the recursion equation) — and appending a block identical
to an already verified one leaves extraction unchanged PROVIDED the
transcript is a well-formed alternation of marker-free text and closed
blocks (so it has no open block and no dangling marker fragment at its
end; the counterexample shows the unrestricted claim fails). -/
theorem getVerifiedBlocks_dedup_idempotent {D : DomainModel} (E : Engine D)
    (hsm : E.startMarker = "[[".data) (hem : E.endMarker = "]]".data) :
    (∀ (p : List Char) (raw : List (List Char × List Char)),
        rawBlocks E.startMarker E.endMarker p = .ok raw →
        getVerifiedBlocks E p = .ok (dedupKeepFirst raw) ∧
        (dedupKeepFirst raw).Nodup ∧
        List.Sublist (dedupKeepFirst raw) raw ∧
        (∀ b, b ∈ dedupKeepFirst raw ↔ b ∈ raw)) ∧
    (∀ (a : List Char × List Char) (l : List (List Char × List Char)),
        dedupKeepFirst (a :: l) = a :: dedupKeepFirst (l.filter (fun b => b ≠ a))) ∧
    (∀ (segs : List Seg) (k c : List Char),
        (∀ sg ∈ segs, segOk sg) → segOk (.blk k c) → (k, c) ∈ closedPairs segs →
        getVerifiedBlocks E (renderT (segs ++ [.blk k c])) =
          getVerifiedBlocks E (renderT segs)) := by
  have hraw : ∀ segs : List Seg, (∀ sg ∈ segs, segOk sg) →
      rawBlocks E.startMarker E.endMarker (renderT segs) = .ok (closedPairs segs) := by
    intro segs hok
    rw [hsm, hem]
    unfold rawBlocks
    have := scanBlocks_renderT segs hok ((renderT segs).length + 1) [] (by simp)
      (by simp)
    simpa using this
  refine ⟨?_, fun a l => dedupKeepFirst_cons a l, ?_⟩
  · intro p raw hp
    refine ⟨?_, dedupSeen_nodup raw [], dedupSeen_sublist raw [], ?_⟩
    · unfold getVerifiedBlocks
      rw [hp]
      rfl
    · intro b
      rw [show dedupKeepFirst raw = dedupSeen [] raw from rfl, dedupSeen_mem]
      simp
  · intro segs k c hok hkc hmem
    have hok2 : ∀ sg ∈ segs ++ [Seg.blk k c], segOk sg := by
      intro sg hsg
      rcases List.mem_append.mp hsg with h | h
      · exact hok sg h
      · rcases List.mem_singleton.mp h with rfl
        exact hkc
    have hA := hraw (segs ++ [Seg.blk k c]) hok2
    have hB := hraw segs hok
    unfold getVerifiedBlocks
    rw [hA, hB]
    rw [closedPairs_append]
    have : closedPairs [Seg.blk k c] = [(k, c)] := rfl
    rw [this]
    have hd : dedupKeepFirst (closedPairs segs ++ [(k, c)]) =
        dedupKeepFirst (closedPairs segs) :=
      dedupSeen_append_mem (k, c) (closedPairs segs) [] (Or.inl hmem)
    simp [Except.map, hd]

/-- Witness for C5's amended statement: a transcript of one block and some
free text; appending the duplicate block changes nothing. -/
theorem getVerifiedBlocks_dedup_idempotent_witness :
    demoEngine.startMarker = "[[".data ∧ demoEngine.endMarker = "]]".data ∧
    (("a".data, "b".data) ∈
      closedPairs [.blk "a".data "b".data, .text " x ".data]) ∧
    getVerifiedBlocks demoEngine
        (renderT ([.blk "a".data "b".data, .text " x ".data] ++ [.blk "a".data "b".data])) =
      getVerifiedBlocks demoEngine (renderT [.blk "a".data "b".data, .text " x ".data]) := by
  refine ⟨rfl, rfl, by decide, ?_⟩
  exact (getVerifiedBlocks_dedup_idempotent demoEngine rfl rfl).2.2
    [.blk "a".data "b".data, .text " x ".data] "a".data "b".data
    (by
      intro sg hsg
      rcases List.mem_cons.mp hsg with rfl | hsg'
      · exact ⟨by decide, by decide, by decide, by decide, by decide⟩
      rcases List.mem_cons.mp hsg' with rfl | hsg''
      · exact (show '[' ∉ " x ".data by decide)
      · cases hsg'')
    ⟨by decide, by decide, by decide, by decide, by decide⟩
    (by decide)
